import Mathlib

/-! PriorityQueue: binomial-heap, linked-list, array-heap and unsorted-vector
priority queues.

A shallow embedding of `BinomialHeapPriorityQueue.cpp`, `LinkedPriorityQueue.cpp`,
`HeapPriorityQueue.cpp` and `VectorPriorityQueue.cpp`.

* A `Vector<T>` of the Stanford C++ library is a `List`; `add` appends at the
  end, `v[i]` reads index `i`, `size()` is the length, `clear()` empties it and
  `remove(i)` deletes the element at index `i`, every later element moving one
  position to the left (`List.eraseIdx`).
* A `BinomialHeapNode*` is an `Option BinomialHeapNode` (`none` is `NULL`).  Every
  node is owned by exactly one slot or one parent, so the in-place update of
  `children.add` is the construction of a new node value.
* `error(msg)` raises an exception before any mutation; a method that can raise
  returns an `Except`.  Reading through a `NULL` pointer is the separate outcome
  `QueueError.nullDereference`.
* `int` values (priorities, sizes) are mathematical integers; `power32` and `size32`
  are the methods `power` and `size` with `int` as an integer of 32 bits.
-/

/-- Modelled from the spec: `PQEntry.h` is not among the sources.  An entry is a
string value with an integer priority; a default-constructed entry has the empty
value and priority `0`. -/
structure PQEntry where
  value : String
  priority : Int
deriving DecidableEq

namespace PQEntry

/-- Modelled from the spec: `operator <` of `PQEntry.h`, priority ascending and on
equal priority value ascending.  Strings are compared character by character. -/
def lt (a b : PQEntry) : Bool :=
  decide (a.priority < b.priority) ||
    (decide (a.priority = b.priority) && decide (a.value.data < b.value.data))

/-- Modelled from the spec: `operator >=` of `PQEntry.h`, the negation of `<`. -/
def ge (a b : PQEntry) : Bool := !(lt a b)

/-- Modelled from the spec: `operator >` of `PQEntry.h`. -/
def gt (a b : PQEntry) : Bool := lt b a

/-- Modelled from the spec: `operator <=` of `PQEntry.h`, less than or equal. -/
def le (a b : PQEntry) : Bool := lt a b || decide (a = b)

/-- Modelled from the spec: `operator !=` of `PQEntry.h`. -/
def ne (a b : PQEntry) : Bool := !(decide (a = b))

/-- Modelled from the spec: the default-constructed entry of `PQEntry.h`. -/
def blank : PQEntry := ⟨"", 0⟩

/-- The pair an entry is ordered by, priority first, in the lexicographic order. -/
def key (e : PQEntry) : Int ×ₗ List Char := toLex (e.priority, e.value.data)

end PQEntry

/-- The outcomes of a call that does not return normally. -/
inductive QueueError where
  | emptyQueue
  | nullDereference
  | indexOutOfRange
  | outOfFuel
deriving DecidableEq

/-- The struct `BinomialHeapNode` of `BinomialHeapPriorityQueue.h`: an entry and the
vector of children.  A child pointer is only ever added by `mergeTrees`, after it
has been dereferenced, so the children are nodes, not optional nodes. -/
inductive BinomialHeapNode where
  | mk (entry : PQEntry) (children : List BinomialHeapNode)

namespace BinomialHeapNode

/-- The field `entry`. -/
def entry : BinomialHeapNode → PQEntry
  | mk e _ => e

/-- The field `children`. -/
def children : BinomialHeapNode → List BinomialHeapNode
  | mk _ cs => cs

mutual
/-- All entries stored in a tree, the root first. -/
def entries : BinomialHeapNode → List PQEntry
  | mk e cs => e :: entriesList cs
/-- All entries stored in a list of trees. -/
def entriesList : List BinomialHeapNode → List PQEntry
  | [] => []
  | t :: ts => entries t ++ entriesList ts
end

mutual
/-- Min-heap property: the entry of every node is less than or equal to every entry
of its subtree. -/
def heapOrdered : BinomialHeapNode → Bool
  | mk e cs => (entriesList cs).all (fun x => PQEntry.le e x) && heapOrderedList cs
/-- Min-heap property of every tree of a list. -/
def heapOrderedList : List BinomialHeapNode → Bool
  | [] => true
  | t :: ts => heapOrdered t && heapOrderedList ts
end

end BinomialHeapNode

/-- The class `BinomialHeapPriorityQueue`: its only member is the vector `heap` of
tree roots, slot `i` being `NULL` or a root. -/
structure BinomialHeapPriorityQueue where
  heap : List (Option BinomialHeapNode)

namespace BinomialHeapPriorityQueue

/-- The constructor: the vector `heap` starts empty. -/
def fresh : BinomialHeapPriorityQueue := ⟨[]⟩

/-- Method `clear`: `heap.clear()`. -/
def clear (_q : BinomialHeapPriorityQueue) : BinomialHeapPriorityQueue := ⟨[]⟩

/-- Method `inBounds`: `(heap.size() - 1) >= index`, on `int`. -/
def inBounds (heap : List (Option BinomialHeapNode)) (index : Nat) : Bool :=
  decide ((heap.length : Int) - 1 ≥ (index : Int))

/-- Method `mergeTrees`: the root that is `>=` the other becomes the last child of the
other; on a tie `tree2` is the parent. -/
def mergeTrees (tree1 tree2 : BinomialHeapNode) : BinomialHeapNode :=
  if PQEntry.ge tree1.entry tree2.entry then
    BinomialHeapNode.mk tree2.entry (tree2.children ++ [tree1])
  else
    BinomialHeapNode.mk tree1.entry (tree1.children ++ [tree2])

/-- The vector `possibleTrees` built at order `i` of `merge`. -/
def possibleTrees (heap1 heap2 : List (Option BinomialHeapNode))
    (carry : Option BinomialHeapNode) (i : Nat) : List BinomialHeapNode :=
  (if inBounds heap1 i then (heap1.getD i none).toList else []) ++
    ((if inBounds heap2 i then (heap2.getD i none).toList else []) ++ carry.toList)

/-- One iteration of the loop of `merge`, on the pair `(mergedHeap, carry)`. -/
def mergeStep (heap1 heap2 : List (Option BinomialHeapNode))
    (st : List (Option BinomialHeapNode) × Option BinomialHeapNode) (i : Nat) :
    List (Option BinomialHeapNode) × Option BinomialHeapNode :=
  match possibleTrees heap1 heap2 st.2 i with
  | [] => (st.1 ++ [none], none)
  | [t0] => (st.1 ++ [some t0], none)
  | [t0, t1] => (st.1 ++ [none], some (mergeTrees t0 t1))
  | t0 :: t1 :: t2 :: _ => (st.1 ++ [some t2], some (mergeTrees t0 t1))

/-- The loop of `merge`, run for the orders `0 .. n - 1`. -/
def mergeLoop (heap1 heap2 : List (Option BinomialHeapNode)) (n : Nat) :
    List (Option BinomialHeapNode) × Option BinomialHeapNode :=
  (List.range n).foldl (mergeStep heap1 heap2) ([], none)

/-- Method `merge(heap1, heap2)`: the value assigned to `heap2`. -/
def merge (heap1 heap2 : List (Option BinomialHeapNode)) : List (Option BinomialHeapNode) :=
  let st := mergeLoop heap1 heap2
    (if heap1.length > heap2.length then heap1.length else heap2.length)
  match st.2 with
  | some carry => st.1 ++ [some carry]
  | none => st.1

/-- Method `enqueue`: a one-slot forest holding the new singleton tree is merged into
`heap`. -/
def enqueue (q : BinomialHeapPriorityQueue) (value : String) (priority : Int) :
    BinomialHeapPriorityQueue :=
  ⟨merge [some (BinomialHeapNode.mk ⟨value, priority⟩ [])] q.heap⟩

/-- Method `isEmpty`: `heap.size() == 0`. -/
def isEmpty (q : BinomialHeapPriorityQueue) : Bool := decide (q.heap.length = 0)

/-- One iteration of the loop of `getDequeuedRoot`, on the pair
`(dequeuedRoot, dequeuedRootIndex)`. -/
def getDequeuedRootStep (heap : List (Option BinomialHeapNode))
    (st : Option BinomialHeapNode × Nat) (i : Nat) : Option BinomialHeapNode × Nat :=
  match heap.getD i none with
  | some t =>
    match st.1 with
    | none => (some t, i)
    | some r => if PQEntry.ge r.entry t.entry then (some t, i) else st
  | none => st

/-- Method `getDequeuedRoot`, called as in the source with `dequeuedRoot = NULL` and
`dequeuedRootIndex = 0`. -/
def getDequeuedRoot (heap : List (Option BinomialHeapNode)) : Option BinomialHeapNode × Nat :=
  (List.range heap.length).foldl (getDequeuedRootStep heap) (none, 0)

/-- Method `peek`. -/
def peek (q : BinomialHeapPriorityQueue) : Except QueueError String :=
  if q.heap.length = 0 then Except.error QueueError.emptyQueue
  else
    match (getDequeuedRoot q.heap).1 with
    | none => Except.error QueueError.nullDereference
    | some r => Except.ok r.entry.value

/-- Method `peekPriority`. -/
def peekPriority (q : BinomialHeapPriorityQueue) : Except QueueError Int :=
  if q.heap.length = 0 then Except.error QueueError.emptyQueue
  else
    match (getDequeuedRoot q.heap).1 with
    | none => Except.error QueueError.nullDereference
    | some r => Except.ok r.entry.priority

/-- Method `dequeue`: the returned value and the queue afterwards. -/
def dequeue (q : BinomialHeapPriorityQueue) :
    Except QueueError (String × BinomialHeapPriorityQueue) :=
  if q.heap.length = 0 then Except.error QueueError.emptyQueue
  else
    match getDequeuedRoot q.heap with
    | (none, _) => Except.error QueueError.nullDereference
    | (some dequeuedRoot, dequeuedRootIndex) =>
      match q.heap.getD dequeuedRootIndex none with
      | none => Except.error QueueError.nullDereference
      | some t =>
        let orphanedChildren := t.children.map some
        Except.ok (dequeuedRoot.entry.value,
          ⟨merge orphanedChildren (q.heap.eraseIdx dequeuedRootIndex)⟩)

/-- Method `power`: `result` starts as 1 and the loop `for (i = 0; i < exponent; i++)`
multiplies it by `base`; the loop runs `exponent` times, not at all when `exponent`
is zero or negative.  Here `int` is a mathematical integer; `power32` is the method on
integers of 32 bits. -/
def power (base : Int) (exponent : Int) : Int :=
  (List.range exponent.toNat).foldl (fun result _ => result * base) 1

/-- Method `size`: `power(2, i)` is added for every slot `i` that is not `NULL`.  Here
`int` is a mathematical integer; `size32` is the method on integers of 32 bits. -/
def size (q : BinomialHeapPriorityQueue) : Int :=
  (List.range q.heap.length).foldl
    (fun heapSize i => if (q.heap.getD i none).isSome then heapSize + power 2 i else heapSize) 0

/-- All entries held by a forest, slot by slot. -/
def forestEntries : List (Option BinomialHeapNode) → List PQEntry
  | [] => []
  | none :: rest => forestEntries rest
  | some t :: rest => t.entries ++ forestEntries rest

/-- All entries held by the queue. -/
def entries (q : BinomialHeapPriorityQueue) : List PQEntry := forestEntries q.heap

end BinomialHeapPriorityQueue


namespace BinomialHeapPriorityQueue

/-- Min-heap property of every tree of a forest. -/
def forestHeapOrdered (heap : List (Option BinomialHeapNode)) : Bool :=
  heap.all (fun o => match o with
    | some t => t.heapOrdered
    | none => true)

/-- The states a queue can be in: those reached from a fresh queue by calls of
`enqueue`, `clear` and `dequeue`.  A `dequeue` that raises leaves the state as it
was, so only the returning calls step. -/
inductive Reachable : BinomialHeapPriorityQueue → Prop where
  | fresh : Reachable fresh
  | enqueue {q : BinomialHeapPriorityQueue} (value : String) (priority : Int) :
      Reachable q → Reachable (q.enqueue value priority)
  | dequeue {q q' : BinomialHeapPriorityQueue} {value : String} :
      Reachable q → q.dequeue = Except.ok (value, q') → Reachable q'
  | clear {q : BinomialHeapPriorityQueue} : Reachable q → Reachable q.clear

/-- The reachable states together with the number of `enqueue` calls minus the
number of returning `dequeue` calls since construction or the last `clear`. -/
inductive Holding : Nat → BinomialHeapPriorityQueue → Prop where
  | fresh : Holding 0 fresh
  | enqueue {n : Nat} {q : BinomialHeapPriorityQueue} (value : String) (priority : Int) :
      Holding n q → Holding (n + 1) (q.enqueue value priority)
  | dequeue {n : Nat} {q q' : BinomialHeapPriorityQueue} {value : String} :
      Holding n q → q.dequeue = Except.ok (value, q') → Holding (n - 1) q'
  | clear {n : Nat} {q : BinomialHeapPriorityQueue} : Holding n q → Holding 0 q.clear

end BinomialHeapPriorityQueue

namespace BinomialHeapPriorityQueue

/-- The invariant of the reachable states that the proofs below rest on: every
tree is heap-ordered and the vector `heap` has at most as many slots as the queue
has entries. -/
def Inv (q : BinomialHeapPriorityQueue) : Prop :=
  forestHeapOrdered q.heap = true ∧ q.heap.length ≤ (entries q).length

end BinomialHeapPriorityQueue

/-- A call of the public interface of a priority queue. -/
inductive Call where
  | enqueue (value : String) (priority : Int)
  | dequeue
  | peek
  | peekPriority
  | isEmpty
  | size
  | clear

/-- What a call of the public interface gives back. -/
inductive Reply where
  | done
  | value (s : String)
  | number (n : Int)
  | flag (b : Bool)
  | raised (e : QueueError)
deriving DecidableEq

namespace BinomialHeapPriorityQueue

/-- One call on a queue: what it gives back and the queue afterwards.  `peek`,
`peekPriority`, `isEmpty` and `size` are `const` methods; a call that raises leaves
the queue as it was. -/
def call (q : BinomialHeapPriorityQueue) : Call → Reply × BinomialHeapPriorityQueue
  | Call.enqueue value priority => (Reply.done, q.enqueue value priority)
  | Call.dequeue =>
    match q.dequeue with
    | Except.ok (value, q') => (Reply.value value, q')
    | Except.error e => (Reply.raised e, q)
  | Call.peek =>
    match q.peek with
    | Except.ok value => (Reply.value value, q)
    | Except.error e => (Reply.raised e, q)
  | Call.peekPriority =>
    match q.peekPriority with
    | Except.ok priority => (Reply.number priority, q)
    | Except.error e => (Reply.raised e, q)
  | Call.isEmpty => (Reply.flag q.isEmpty, q)
  | Call.size => (Reply.number q.size, q)
  | Call.clear => (Reply.done, q.clear)

/-- A sequence of calls, one after the other: the replies and the last queue. -/
def runCalls : List Call → BinomialHeapPriorityQueue → List Reply × BinomialHeapPriorityQueue
  | [], q => ([], q)
  | c :: cs, q => ((q.call c).1 :: (runCalls cs (q.call c).2).1, (runCalls cs (q.call c).2).2)

/-- The pairs of a list enqueued in the order of the list. -/
def enqueueAll (q : BinomialHeapPriorityQueue) (l : List (String × Int)) :
    BinomialHeapPriorityQueue :=
  l.foldl (fun acc p => acc.enqueue p.1 p.2) q

/-- Method `dequeue` called `n` times in a row: the returned values in the order of the
calls and the last queue, or the first error raised. -/
def dequeueN : Nat → BinomialHeapPriorityQueue →
    Except QueueError (List String × BinomialHeapPriorityQueue)
  | 0, q => Except.ok ([], q)
  | n + 1, q =>
    match q.dequeue with
    | Except.error e => Except.error e
    | Except.ok (value, q') =>
      match dequeueN n q' with
      | Except.error e => Except.error e
      | Except.ok (values, q'') => Except.ok (value :: values, q'')

end BinomialHeapPriorityQueue

/-- Modelled from the spec: `ListNode.h` is not among the sources.  A node of the
linked list carries a value and a priority; its links `prev` and `next` are the
position of the node in the list, and a new node has no successor. -/
structure ListNode where
  value : String
  priority : Int
deriving DecidableEq

namespace ListNode

/-- The value and priority of a node as an entry. -/
def entry (n : ListNode) : PQEntry := ⟨n.value, n.priority⟩

/-- Modelled from the spec: `operator <` of `ListNode.h`, the entry order. -/
def lt (a b : ListNode) : Bool := PQEntry.lt a.entry b.entry

/-- Modelled from the spec: `operator >=` of `ListNode.h`, the negation of `<`. -/
def ge (a b : ListNode) : Bool := !(lt a b)

end ListNode

/-- The class `LinkedPriorityQueue`: the nodes that follow the sentinel `head`, in
the order of the `next` links (`head->next == NULL` is the empty list). -/
structure LinkedPriorityQueue where
  nodes : List ListNode

namespace LinkedPriorityQueue

/-- The constructor: the sentinel `head` has no successor. -/
def fresh : LinkedPriorityQueue := ⟨[]⟩

/-- The loop of `enqueue` from the node `node` on: `insert` goes before the first
node it is less than, or after the last node. -/
def enqueueLoop (insert : ListNode) : List ListNode → List ListNode
  | [] => []
  | node :: rest =>
    if ListNode.lt insert node then insert :: node :: rest
    else if ListNode.ge insert node && rest.isEmpty then [node, insert]
    else node :: enqueueLoop insert rest

/-- Method `enqueue`: the loop, then the test `head->next == NULL` that links the first
node of an empty list. -/
def enqueue (q : LinkedPriorityQueue) (value : String) (priority : Int) : LinkedPriorityQueue :=
  match enqueueLoop ⟨value, priority⟩ q.nodes with
  | [] => ⟨[⟨value, priority⟩]⟩
  | n :: ns => ⟨n :: ns⟩

/-- Method `dequeue`: the node after `head` is unlinked and its value returned. -/
def dequeue (q : LinkedPriorityQueue) : Except QueueError (String × LinkedPriorityQueue) :=
  match q.nodes with
  | [] => Except.error QueueError.emptyQueue
  | toDequeue :: rest => Except.ok (toDequeue.value, ⟨rest⟩)

/-- The entries held by the list, in list order. -/
def entries (q : LinkedPriorityQueue) : List PQEntry := q.nodes.map ListNode.entry

/-- The pairs of a list enqueued in the order of the list. -/
def enqueueAll (q : LinkedPriorityQueue) (l : List (String × Int)) : LinkedPriorityQueue :=
  l.foldl (fun acc p => acc.enqueue p.1 p.2) q

/-- Method `dequeue` called `n` times in a row: the returned values in the order of the
calls and the last queue, or the first error raised. -/
def dequeueN : Nat → LinkedPriorityQueue → Except QueueError (List String × LinkedPriorityQueue)
  | 0, q => Except.ok ([], q)
  | n + 1, q =>
    match q.dequeue with
    | Except.error e => Except.error e
    | Except.ok (value, q') =>
      match dequeueN n q' with
      | Except.error e => Except.error e
      | Except.ok (values, q'') => Except.ok (value :: values, q'')

end LinkedPriorityQueue

/-- The class `HeapPriorityQueue`: the array `queue` of `queueCapacity` cells, of
which the cells `1 .. queueSize` hold the heap. -/
structure HeapPriorityQueue where
  queue : List PQEntry
  queueCapacity : Nat
  queueSize : Nat
deriving DecidableEq

namespace HeapPriorityQueue

/-- The constant `kInitialCapacity`. -/
def kInitialCapacity : Nat := 10

/-- The constant `kZeroBaseOffset`. -/
def kZeroBaseOffset : Nat := 1

/-- Expression `new PQEntry[n]`: `n` default-constructed entries. -/
def newArray (n : Nat) : List PQEntry := List.replicate n PQEntry.blank

/-- The constructor. -/
def fresh : HeapPriorityQueue := ⟨newArray kInitialCapacity, kInitialCapacity, 0⟩

/-- The array read `queue[i]`; an index outside the array is an error of the model. -/
def readAt (queue : List PQEntry) (i : Nat) : Except QueueError PQEntry :=
  match queue[i]? with
  | some e => Except.ok e
  | none => Except.error QueueError.indexOutOfRange

/-- The array write `queue[i] = e`; an index outside the array is an error of the
model. -/
def writeAt (queue : List PQEntry) (i : Nat) (e : PQEntry) : Except QueueError (List PQEntry) :=
  if i < queue.length then Except.ok (queue.set i e) else Except.error QueueError.indexOutOfRange

/-- Method `setRoot`: the cell `index` when `index <= queueSize`, else a blank entry. -/
def setRoot (queue : List PQEntry) (queueSize index : Nat) : Except QueueError PQEntry :=
  if index ≤ queueSize then readAt queue index else Except.ok PQEntry.blank

/-- Method `validBranch`: the entry differs from a blank entry. -/
def validBranch (root : PQEntry) : Bool := PQEntry.ne root PQEntry.blank

/-- Method `getLeftChildIndex`. -/
def getLeftChildIndex (index : Nat) : Nat := 2 * index

/-- Method `getRightChildIndex`. -/
def getRightChildIndex (index : Nat) : Nat := 2 * index + 1

/-- Method `expandQueueCapacity`: a new array of twice the capacity, cell 0 blank, the
cells `1 .. queueSize` copied from the old array. -/
def expandQueueCapacity (q : HeapPriorityQueue) : Except QueueError HeapPriorityQueue := do
  let queueCapacity := q.queueCapacity * 2
  let queue ← writeAt (newArray queueCapacity) 0 PQEntry.blank
  let queue ← (List.range' 1 q.queueSize).foldlM
    (fun (acc : List PQEntry) i => do
      let e ← readAt q.queue i
      writeAt acc i e) queue
  pure ⟨queue, queueCapacity, q.queueSize⟩

/-- The `while` loop of `percolateUp`, on `queue`, `childIndex`, `parentIndex` and
`parent`; `fuel` bounds the number of iterations of the model. -/
def percolateUpLoop (child : PQEntry) :
    Nat → List PQEntry → Nat → Nat → PQEntry → Except QueueError (List PQEntry)
  | 0, _, _, _, _ => Except.error QueueError.outOfFuel
  | fuel + 1, queue, childIndex, parentIndex, parent =>
    if validBranch child && PQEntry.lt child parent then do
      let queue ← writeAt queue parentIndex child
      let queue ← writeAt queue childIndex parent
      let parent ← readAt queue (parentIndex / 2)
      percolateUpLoop child fuel queue parentIndex (parentIndex / 2) parent
    else Except.ok queue

/-- Method `percolateUp`.  The child index at least halves in every iteration, so
`childIndex + 1` iterations are enough. -/
def percolateUp (q : HeapPriorityQueue) (childIndex : Nat) : Except QueueError HeapPriorityQueue := do
  let parentIndex := childIndex / 2
  let child ← setRoot q.queue q.queueSize childIndex
  let parent ← setRoot q.queue q.queueSize parentIndex
  let queue ← percolateUpLoop child (childIndex + 1) q.queue childIndex parentIndex parent
  pure ⟨queue, q.queueCapacity, q.queueSize⟩

/-- Method `enqueue`. -/
def enqueue (q : HeapPriorityQueue) (value : String) (priority : Int) :
    Except QueueError HeapPriorityQueue := do
  let newNode : PQEntry := ⟨value, priority⟩
  let newNodeIndex := q.queueSize + kZeroBaseOffset
  let q ← if q.queueCapacity ≤ newNodeIndex then expandQueueCapacity q else pure q
  let queue ← writeAt q.queue newNodeIndex newNode
  let q : HeapPriorityQueue := ⟨queue, q.queueCapacity, q.queueSize + 1⟩
  if newNodeIndex ≠ kZeroBaseOffset then percolateUp q newNodeIndex else pure q

/-- Method `swap`: the new `queue`, `trickleDownIndex` and `trickleDownNode`. -/
def swap (queue : List PQEntry) (childNode trickleDownNode : PQEntry)
    (childIndex trickleDownIndex : Nat) : Except QueueError (List PQEntry × Nat × PQEntry) := do
  let queue ← writeAt queue trickleDownIndex childNode
  let queue ← writeAt queue childIndex trickleDownNode
  let trickleDownNode ← readAt queue childIndex
  pure (queue, childIndex, trickleDownNode)

/-- The `while` loop of `trickleDown`, on `queue`, `trickleDownIndex`,
`trickleDownNode`, `leftChild` and `rightChild`; `fuel` bounds the number of
iterations of the model. -/
def trickleDownLoop (queueSize : Nat) :
    Nat → List PQEntry → Nat → PQEntry → PQEntry → PQEntry → Except QueueError (List PQEntry)
  | 0, _, _, _, _, _ => Except.error QueueError.outOfFuel
  | fuel + 1, queue, trickleDownIndex, trickleDownNode, leftChild, rightChild =>
    if (validBranch leftChild && PQEntry.gt trickleDownNode leftChild) ||
        (validBranch rightChild && PQEntry.gt trickleDownNode rightChild) then do
      let st ←
        if validBranch rightChild && PQEntry.gt leftChild rightChild then
          swap queue rightChild trickleDownNode (getRightChildIndex trickleDownIndex)
            trickleDownIndex
        else
          swap queue leftChild trickleDownNode (getLeftChildIndex trickleDownIndex)
            trickleDownIndex
      let leftChild ← setRoot st.1 queueSize (getLeftChildIndex st.2.1)
      let rightChild ← setRoot st.1 queueSize (getRightChildIndex st.2.1)
      trickleDownLoop queueSize fuel st.1 st.2.1 st.2.2 leftChild rightChild
    else Except.ok queue

/-- Method `trickleDown`.  The index at least doubles in every iteration and a cell beyond
`queueSize` is read as blank, so `queueSize + 1` iterations are enough. -/
def trickleDown (q : HeapPriorityQueue) (lastNodeIndex : Nat) :
    Except QueueError HeapPriorityQueue := do
  let trickleDownIndex := kZeroBaseOffset
  let last ← readAt q.queue lastNodeIndex
  let queue ← writeAt q.queue trickleDownIndex last
  let queue ← writeAt queue lastNodeIndex PQEntry.blank
  let trickleDownNode ← readAt queue trickleDownIndex
  let leftChild ← setRoot queue q.queueSize (getLeftChildIndex trickleDownIndex)
  let rightChild ← setRoot queue q.queueSize (getRightChildIndex trickleDownIndex)
  let queue ← trickleDownLoop q.queueSize (q.queueSize + 1) queue trickleDownIndex
    trickleDownNode leftChild rightChild
  pure ⟨queue, q.queueCapacity, q.queueSize⟩

/-- Method `dequeue`: the returned value and the queue afterwards. -/
def dequeue (q : HeapPriorityQueue) : Except QueueError (String × HeapPriorityQueue) :=
  if q.queueSize = 0 then Except.error QueueError.emptyQueue
  else do
    let root ← readAt q.queue kZeroBaseOffset
    let q' ← trickleDown q q.queueSize
    pure (root.value, ⟨q'.queue, q'.queueCapacity, q'.queueSize - 1⟩)

/-- Method `peek`. -/
def peek (q : HeapPriorityQueue) : Except QueueError String :=
  if q.queueSize = 0 then Except.error QueueError.emptyQueue
  else do
    let root ← readAt q.queue kZeroBaseOffset
    pure root.value

/-- Method `peekPriority`. -/
def peekPriority (q : HeapPriorityQueue) : Except QueueError Int :=
  if q.queueSize = 0 then Except.error QueueError.emptyQueue
  else do
    let root ← readAt q.queue kZeroBaseOffset
    pure root.priority

/-- The pairs of a list enqueued in the order of the list, or the first error. -/
def enqueueAll (q : HeapPriorityQueue) (l : List (String × Int)) :
    Except QueueError HeapPriorityQueue :=
  l.foldlM (fun acc p => acc.enqueue p.1 p.2) q

end HeapPriorityQueue

/-- The entry made of a pair passed to `enqueue`. -/
def toEntry (p : String × Int) : PQEntry := ⟨p.1, p.2⟩

/-- The entries of a list in the order of the specification: priority ascending,
value ascending on equal priority. -/
def sortedEntries (l : List PQEntry) : List PQEntry :=
  List.insertionSort (fun a b => PQEntry.le a b = true) l

namespace BinomialHeapPriorityQueue

/-- The number of trees an optional root stands for: 1 when it is a root, 0 when it
is `NULL`. -/
def present (o : Option BinomialHeapNode) : Nat := if o.isSome then 1 else 0

/-- The carry that comes into order `i` of `merge(heap1, heap2)`: the variable
`carry` after the iterations for the orders `0 .. i - 1`. -/
def carryInto (heap1 heap2 : List (Option BinomialHeapNode)) (i : Nat) :
    Option BinomialHeapNode :=
  (mergeLoop heap1 heap2 i).2

/-- The number of trees present at order `i` of `merge(heap1, heap2)` among
`heap1[i]`, `heap2[i]` and the incoming carry. -/
def treesPresent (heap1 heap2 : List (Option BinomialHeapNode)) (i : Nat) : Nat :=
  present (heap1.getD i none) + present (heap2.getD i none) + present (carryInto heap1 heap2 i)

end BinomialHeapPriorityQueue

namespace BinomialHeapPriorityQueue

/-- A forest used as a concrete input: ("a",1) at order 0 and ("b",2) over ("c",3)
at order 1. -/
def sampleLeft : List (Option BinomialHeapNode) :=
  [some (BinomialHeapNode.mk ⟨"a", 1⟩ []),
    some (BinomialHeapNode.mk ⟨"b", 2⟩ [BinomialHeapNode.mk ⟨"c", 3⟩ []])]

/-- A forest used as a concrete input: ("d",4) at order 0. -/
def sampleRight : List (Option BinomialHeapNode) :=
  [some (BinomialHeapNode.mk ⟨"d", 4⟩ [])]

end BinomialHeapPriorityQueue

namespace BinomialHeapNode

mutual
/-- A binomial tree of order `k`: the root has exactly `k` children and the child at
position `j` (from 0) is a binomial tree of order `j`. -/
def isBinomialTree : BinomialHeapNode → Nat → Bool
  | mk _ cs, k => decide (cs.length = k) && isBinomialChildren cs 0
/-- The trees of a list are binomial trees of the orders `j`, `j + 1`, ... in list
order. -/
def isBinomialChildren : List BinomialHeapNode → Nat → Bool
  | [], _ => true
  | c :: cs, j => isBinomialTree c j && isBinomialChildren cs (j + 1)
end

mutual
/-- All nodes of a tree, each given as the subtree it roots, the root first. -/
def subtrees : BinomialHeapNode → List BinomialHeapNode
  | mk e cs => mk e cs :: subtreesList cs
/-- All nodes of the trees of a list. -/
def subtreesList : List BinomialHeapNode → List BinomialHeapNode
  | [] => []
  | t :: ts => subtrees t ++ subtreesList ts
end

end BinomialHeapNode

namespace BinomialHeapPriorityQueue

/-- Every occupied slot of a forest whose first slot has index `i` holds a binomial
tree of the order given by its slot index. -/
def forestWellFormedFrom : List (Option BinomialHeapNode) → Nat → Bool
  | [], _ => true
  | none :: rest, i => forestWellFormedFrom rest (i + 1)
  | some t :: rest, i => t.isBinomialTree i && forestWellFormedFrom rest (i + 1)

/-- Every occupied slot `i` of a forest holds a binomial tree of order `i`. -/
def forestWellFormed (heap : List (Option BinomialHeapNode)) : Bool :=
  forestWellFormedFrom heap 0

/-- The forest that `dequeue` passes to `merge` together with the detached children:
`heap` after `heap.remove(dequeuedRootIndex)`. -/
def forestAfterRemove (q : BinomialHeapPriorityQueue) : List (Option BinomialHeapNode) :=
  q.heap.eraseIdx (getDequeuedRoot q.heap).2

end BinomialHeapPriorityQueue

namespace LinkedPriorityQueue

/-- Method `isEmpty`: `head->next == NULL`. -/
def isEmpty (q : LinkedPriorityQueue) : Bool := q.nodes.isEmpty

/-- Method `peek`. -/
def peek (q : LinkedPriorityQueue) : Except QueueError String :=
  match q.nodes with
  | [] => Except.error QueueError.emptyQueue
  | n :: _ => Except.ok n.value

/-- Method `peekPriority`. -/
def peekPriority (q : LinkedPriorityQueue) : Except QueueError Int :=
  match q.nodes with
  | [] => Except.error QueueError.emptyQueue
  | n :: _ => Except.ok n.priority

/-- Method `size`: `count` is incremented once for every node after `head`. -/
def size (q : LinkedPriorityQueue) : Int :=
  q.nodes.foldl (fun count _ => count + 1) 0

/-- Method `clear`: `node` starts as `head->next` and the loop runs `while(!node)`.
On an empty list `node` is `NULL`, the loop is entered and its body reads
`node->next`; on a list with a node the loop is skipped and `head->next` is set to
`NULL`. -/
def clear (q : LinkedPriorityQueue) : Except QueueError LinkedPriorityQueue :=
  match q.nodes with
  | [] => Except.error QueueError.nullDereference
  | _ :: _ => Except.ok ⟨[]⟩

/-- The states reached from a fresh queue by calls of `enqueue` and `dequeue`,
together with the entries enqueued and not yet dequeued: `enqueue` adds its entry,
a returning `dequeue` takes away the entry of the node it unlinks. -/
inductive Holding : List PQEntry → LinkedPriorityQueue → Prop where
  | fresh : Holding [] fresh
  | enqueue {held : List PQEntry} {q : LinkedPriorityQueue} (value : String) (priority : Int) :
      Holding held q → Holding (⟨value, priority⟩ :: held) (q.enqueue value priority)
  | dequeue {held : List PQEntry} {q q' : LinkedPriorityQueue} {n : ListNode}
      {rest : List ListNode} {value : String} :
      Holding held q → q.nodes = n :: rest → q.dequeue = Except.ok (value, q') →
      Holding (held.erase n.entry) q'

end LinkedPriorityQueue

/-- The class `VectorPriorityQueue`: its only member is the vector `unsortedVector`. -/
structure VectorPriorityQueue where
  unsortedVector : List PQEntry
deriving DecidableEq

namespace VectorPriorityQueue

/-- The constructor: the vector starts empty. -/
def fresh : VectorPriorityQueue := ⟨[]⟩

/-- The read `unsortedVector[i]`, which the vector checks against its range. -/
def readEntry (v : List PQEntry) (i : Nat) : Except QueueError PQEntry :=
  match v[i]? with
  | some e => Except.ok e
  | none => Except.error QueueError.indexOutOfRange

/-- One iteration of the loop of `returnUrgentPriorityIndex`, on `urgPriorityIndex`
(or the error raised so far). -/
def urgentStep (v : List PQEntry) (st : Except QueueError Nat) (i : Nat) :
    Except QueueError Nat :=
  match st with
  | Except.error e => Except.error e
  | Except.ok urgPriorityIndex =>
    if i ≠ urgPriorityIndex then
      match readEntry v urgPriorityIndex, readEntry v i with
      | Except.ok urg, Except.ok curr =>
        if urg.priority > curr.priority then Except.ok i
        else if urg.priority = curr.priority then
          if urg.value.data > curr.value.data then Except.ok i else Except.ok urgPriorityIndex
        else Except.ok urgPriorityIndex
      | Except.error e, _ => Except.error e
      | _, Except.error e => Except.error e
    else Except.ok urgPriorityIndex

/-- Method `returnUrgentPriorityIndex`. -/
def returnUrgentPriorityIndex (q : VectorPriorityQueue) : Except QueueError Nat :=
  (List.range q.unsortedVector.length).foldl (urgentStep q.unsortedVector) (Except.ok 0)

/-- Method `enqueue`: the entry is added at the end. -/
def enqueue (q : VectorPriorityQueue) (value : String) (priority : Int) : VectorPriorityQueue :=
  ⟨q.unsortedVector ++ [⟨value, priority⟩]⟩

/-- Method `peek`. -/
def peek (q : VectorPriorityQueue) : Except QueueError String :=
  if q.unsortedVector.length = 0 then Except.error QueueError.emptyQueue
  else do
    let urgPriorityIndex ← returnUrgentPriorityIndex q
    let e ← readEntry q.unsortedVector urgPriorityIndex
    pure e.value

/-- Method `peekPriority`. -/
def peekPriority (q : VectorPriorityQueue) : Except QueueError Int :=
  if q.unsortedVector.length = 0 then Except.error QueueError.emptyQueue
  else do
    let urgPriorityIndex ← returnUrgentPriorityIndex q
    let e ← readEntry q.unsortedVector urgPriorityIndex
    pure e.priority

/-- Method `dequeue`: the returned value and the queue afterwards. -/
def dequeue (q : VectorPriorityQueue) : Except QueueError (String × VectorPriorityQueue) :=
  if q.unsortedVector.length = 0 then Except.error QueueError.emptyQueue
  else do
    let urgPriorityIndex ← returnUrgentPriorityIndex q
    let e ← readEntry q.unsortedVector urgPriorityIndex
    if urgPriorityIndex < q.unsortedVector.length then
      pure (e.value, ⟨q.unsortedVector.eraseIdx urgPriorityIndex⟩)
    else Except.error QueueError.indexOutOfRange

/-- Method `isEmpty`. -/
def isEmpty (q : VectorPriorityQueue) : Bool := q.unsortedVector.isEmpty

/-- Method `size`. -/
def size (q : VectorPriorityQueue) : Int := q.unsortedVector.length

/-- Method `clear`. -/
def clear (_q : VectorPriorityQueue) : VectorPriorityQueue := ⟨[]⟩

end VectorPriorityQueue

namespace BinomialHeapPriorityQueue

/-- The sum of `2^i` over the occupied slots `i` below `k` of a forest. -/
def occupiedSumBelow (heap : List (Option BinomialHeapNode)) : Nat → Int
  | 0 => 0
  | k + 1 => occupiedSumBelow heap k + (if (heap.getD k none).isSome then 2 ^ k else 0)

/-- The sum of `2^i` over the occupied slots `i` of a forest: the binary number whose
bit `i` is 1 exactly when slot `i` is occupied. -/
def occupiedSum (heap : List (Option BinomialHeapNode)) : Int :=
  occupiedSumBelow heap heap.length

end BinomialHeapPriorityQueue

namespace HeapPriorityQueue

/-- Method `clear`: the cells `0 .. queueSize - 1` are made blank and `queueSize`
becomes 0. -/
def clear (q : HeapPriorityQueue) : Except QueueError HeapPriorityQueue := do
  let queue ← (List.range q.queueSize).foldlM
    (fun (acc : List PQEntry) i => writeAt acc i PQEntry.blank) q.queue
  pure ⟨queue, q.queueCapacity, 0⟩

/-- Method `isEmpty`. -/
def isEmpty (q : HeapPriorityQueue) : Bool := decide (q.queueSize = 0)

/-- Method `size`. -/
def size (q : HeapPriorityQueue) : Int := q.queueSize

/-- The cell `i` of an array, read as blank outside the array. -/
def cell (queue : List PQEntry) (i : Nat) : PQEntry := queue.getD i PQEntry.blank

/-- Every cell `i` of `2 .. queueSize` is greater than or equal to the cell `i / 2`. -/
def heapOrdered (q : HeapPriorityQueue) : Bool :=
  (List.range' 2 (q.queueSize - 1)).all
    (fun i => PQEntry.le (cell q.queue (i / 2)) (cell q.queue i))

/-- The states reached from a fresh queue by calls of `enqueue`, `dequeue` and
`clear` with any arguments; only the calls that return step. -/
inductive Reachable : HeapPriorityQueue → Prop where
  | fresh : Reachable fresh
  | enqueue {q q' : HeapPriorityQueue} (value : String) (priority : Int) :
      Reachable q → q.enqueue value priority = Except.ok q' → Reachable q'
  | dequeue {q q' : HeapPriorityQueue} {value : String} :
      Reachable q → q.dequeue = Except.ok (value, q') → Reachable q'
  | clear {q q' : HeapPriorityQueue} : Reachable q → q.clear = Except.ok q' → Reachable q'

/-- The states reached from a fresh queue by calls of `enqueue` with a priority of
at least 1 and of `dequeue`, together with the entries enqueued and not yet dequeued:
`enqueue` adds its entry, a returning `dequeue` takes away the entry of cell 1. -/
inductive Holding : List PQEntry → HeapPriorityQueue → Prop where
  | fresh : Holding [] fresh
  | enqueue {held : List PQEntry} {q q' : HeapPriorityQueue} (value : String) (priority : Int) :
      Holding held q → 1 ≤ priority → q.enqueue value priority = Except.ok q' →
      Holding (⟨value, priority⟩ :: held) q'
  | dequeue {held : List PQEntry} {q q' : HeapPriorityQueue} {value : String} :
      Holding held q → q.dequeue = Except.ok (value, q') →
      Holding (held.erase (cell q.queue 1)) q'

/-- `dequeue` called `n` times in a row: the returned values in the order of the
calls and the last queue, or the first error raised. -/
def dequeueN : Nat → HeapPriorityQueue → Except QueueError (List String × HeapPriorityQueue)
  | 0, q => Except.ok ([], q)
  | n + 1, q =>
    match q.dequeue with
    | Except.error e => Except.error e
    | Except.ok (value, q') =>
      match dequeueN n q' with
      | Except.error e => Except.error e
      | Except.ok (values, q'') => Except.ok (value :: values, q'')

end HeapPriorityQueue

namespace HeapPriorityQueue

end HeapPriorityQueue

namespace HeapPriorityQueue

end HeapPriorityQueue

namespace BinomialHeapPriorityQueue

/-- An `int` of 32 bits in two's complement: the value a sum or a product has after it
wrapped around, in `-2147483648 .. 2147483647`. -/
def wrapInt (x : Int) : Int := (x + 2147483648) % 4294967296 - 2147483648

/-- Method `power` with `int` as an integer of 32 bits: `result *= base` wraps around. -/
def power32 (base : Int) (exponent : Int) : Int :=
  (List.range exponent.toNat).foldl (fun result _ => wrapInt (result * base)) 1

/-- Method `size` with `int` as an integer of 32 bits: `heapSize += power(2, i)` wraps
around. -/
def size32 (q : BinomialHeapPriorityQueue) : Int :=
  (List.range q.heap.length).foldl
    (fun heapSize i =>
      if (q.heap.getD i none).isSome then wrapInt (heapSize + power32 2 i) else heapSize) 0

/-- A sequence of 97 calls: `enqueue("r", 1)`; 31 times `enqueue("y", 2)`,
`enqueue("z", 0)`, `dequeue()`; then `enqueue("y", 2)`, `enqueue("x", 3)`, `dequeue()`.
Every `enqueue("y", 2)` makes `y` one more child of `r` and moves the tree of `r` to
slot 1, every `dequeue()` of `z` from slot 0 lets `heap.remove(0)` move it back to
slot 0; the last `dequeue()` takes `r` and merges its 32 children, at the slots
`0 .. 31`, with `x` at slot 0. -/
def overflowCalls : List Call :=
  Call.enqueue "r" 1 ::
    ((List.replicate 31 [Call.enqueue "y" 2, Call.enqueue "z" 0, Call.dequeue]).flatten ++
      [Call.enqueue "y" 2, Call.enqueue "x" 3, Call.dequeue])

/-- The queue after the calls of `overflowCalls` on a fresh queue. -/
def overflowState : BinomialHeapPriorityQueue := (runCalls overflowCalls fresh).2

end BinomialHeapPriorityQueue

namespace HeapPriorityQueue

end HeapPriorityQueue

/-! ## The entry order -/

namespace PQEntry

theorem key_inj {a b : PQEntry} (h : key a = key b) : a = b := by
  cases a with
  | mk va pa =>
    cases b with
    | mk vb pb =>
      have h2 : (pa, va.data) = (pb, vb.data) := h
      simp only [Prod.mk.injEq] at h2
      obtain ⟨hp, hv⟩ := h2
      have hv2 : va = vb := String.ext hv
      subst hp; subst hv2; rfl

theorem lt_iff_key (a b : PQEntry) : lt a b = true ↔ key a < key b := by
  simp [lt, key, Prod.Lex.lt_iff]

theorem le_iff_key (a b : PQEntry) : le a b = true ↔ key a ≤ key b := by
  simp only [le, Bool.or_eq_true, decide_eq_true_eq, lt_iff_key, le_iff_lt_or_eq]
  constructor
  · rintro (h | h)
    · exact Or.inl h
    · exact Or.inr (by rw [h])
  · rintro (h | h)
    · exact Or.inl h
    · exact Or.inr (key_inj h)

theorem ge_iff_key (a b : PQEntry) : ge a b = true ↔ key b ≤ key a := by
  simp only [ge, Bool.not_eq_true', ← not_lt, ← lt_iff_key]
  simp

theorem ge_iff_le (a b : PQEntry) : ge a b = true ↔ le b a = true := by
  rw [ge_iff_key, le_iff_key]

theorem ge_false_iff (a b : PQEntry) : ge a b = false ↔ lt a b = true := by
  simp [ge]

theorem le_rfl_entry (a : PQEntry) : le a a = true := (le_iff_key a a).2 (le_refl _)

theorem le_trans_entry {a b c : PQEntry} (h1 : le a b = true) (h2 : le b c = true) :
    le a c = true :=
  (le_iff_key a c).2 (le_trans ((le_iff_key a b).1 h1) ((le_iff_key b c).1 h2))

theorem le_total_entry (a b : PQEntry) : le a b = true ∨ le b a = true := by
  rw [le_iff_key, le_iff_key]; exact le_total _ _

theorem le_antisymm_entry {a b : PQEntry} (h1 : le a b = true) (h2 : le b a = true) : a = b :=
  key_inj (le_antisymm ((le_iff_key a b).1 h1) ((le_iff_key b a).1 h2))

theorem le_of_lt_entry {a b : PQEntry} (h : lt a b = true) : le a b = true :=
  (le_iff_key a b).2 (le_of_lt ((lt_iff_key a b).1 h))

theorem le_iff_not_lt (a b : PQEntry) : le a b = true ↔ lt b a = false := by
  rw [le_iff_key, ← not_lt, ← lt_iff_key]; simp

end PQEntry

/-! ## Loops over `0 .. n - 1` -/

theorem foldl_range_invariant {σ : Type} (f : σ → Nat → σ) (P : Nat → σ → Prop) (init : σ)
    (n : Nat) (h0 : P 0 init) (hs : ∀ i s, i < n → P i s → P (i + 1) (f s i)) :
    P n ((List.range n).foldl f init) := by
  induction n with
  | zero => simpa using h0
  | succ k ih =>
    rw [List.range_succ, List.foldl_append]
    simp only [List.foldl_cons, List.foldl_nil]
    exact hs k _ (Nat.lt_succ_self k)
      (ih (fun i s hi hp => hs i s (Nat.lt_succ_of_lt hi) hp))

/-! ## Trees -/

namespace BinomialHeapNode

theorem entries_eq (t : BinomialHeapNode) : t.entries = t.entry :: entriesList t.children := by
  cases t; simp [entries, entry, children]

theorem entriesList_append (as bs : List BinomialHeapNode) :
    entriesList (as ++ bs) = entriesList as ++ entriesList bs := by
  induction as with
  | nil => simp [entriesList]
  | cons a as ih => simp [entriesList, ih]

theorem heapOrderedList_append (as bs : List BinomialHeapNode) :
    heapOrderedList (as ++ bs) = (heapOrderedList as && heapOrderedList bs) := by
  induction as with
  | nil => simp [heapOrderedList]
  | cons a as ih => simp [heapOrderedList, ih, Bool.and_assoc]

theorem heapOrdered_iff (t : BinomialHeapNode) :
    t.heapOrdered = true ↔
      (∀ x ∈ entriesList t.children, PQEntry.le t.entry x = true) ∧
        heapOrderedList t.children = true := by
  cases t; simp [heapOrdered, entry, children]

theorem root_le_of_heapOrdered {t : BinomialHeapNode} (h : t.heapOrdered = true) :
    ∀ x ∈ t.entries, PQEntry.le t.entry x = true := by
  intro x hx
  rw [entries_eq] at hx
  rcases List.mem_cons.1 hx with rfl | hx
  · exact PQEntry.le_rfl_entry _
  · exact ((heapOrdered_iff t).1 h).1 x hx

theorem entries_length_pos (t : BinomialHeapNode) : 1 ≤ t.entries.length := by
  rw [entries_eq]; simp

theorem children_length_le (cs : List BinomialHeapNode) : cs.length ≤ (entriesList cs).length := by
  induction cs with
  | nil => simp
  | cons c cs ih =>
    have := entries_length_pos c
    simp only [entriesList, List.length_cons, List.length_append]
    omega

theorem heapOrderedList_mem {cs : List BinomialHeapNode} (h : heapOrderedList cs = true) :
    ∀ c ∈ cs, c.heapOrdered = true := by
  induction cs with
  | nil => simp
  | cons c cs ih =>
    simp only [heapOrderedList, Bool.and_eq_true] at h
    intro d hd
    rcases List.mem_cons.1 hd with rfl | hd
    · exact h.1
    · exact ih h.2 d hd

end BinomialHeapNode

namespace BinomialHeapPriorityQueue

open BinomialHeapNode

theorem mergeTrees_entries_perm (t1 t2 : BinomialHeapNode) :
    (mergeTrees t1 t2).entries.Perm (t1.entries ++ t2.entries) := by
  unfold mergeTrees
  split
  · rw [BinomialHeapNode.entries, entriesList_append, entries_eq t2]
    simp only [entriesList, List.append_nil, List.cons_append]
    exact @List.perm_append_comm _ (t2.entry :: entriesList t2.children) t1.entries
  · rw [BinomialHeapNode.entries, entriesList_append, entries_eq t1]
    simp [entriesList]

theorem mergeTrees_heapOrdered {t1 t2 : BinomialHeapNode} (h1 : t1.heapOrdered = true)
    (h2 : t2.heapOrdered = true) : (mergeTrees t1 t2).heapOrdered = true := by
  unfold mergeTrees
  split
  · rename_i hge
    have hle : PQEntry.le t2.entry t1.entry = true := (PQEntry.ge_iff_le _ _).1 hge
    rw [heapOrdered_iff]
    simp only [entry, children, entriesList_append, heapOrderedList_append, entriesList,
      heapOrderedList, List.append_nil, List.mem_append, Bool.and_true, Bool.and_eq_true]
    refine ⟨?_, ((heapOrdered_iff t2).1 h2).2, h1⟩
    rintro x (hx | hx)
    · exact ((heapOrdered_iff t2).1 h2).1 x hx
    · exact PQEntry.le_trans_entry hle (root_le_of_heapOrdered h1 x hx)
  · rename_i hge
    have hlt : PQEntry.lt t1.entry t2.entry = true := by
      simpa [PQEntry.ge] using hge
    have hle : PQEntry.le t1.entry t2.entry = true := PQEntry.le_of_lt_entry hlt
    rw [heapOrdered_iff]
    simp only [entry, children, entriesList_append, heapOrderedList_append, entriesList,
      heapOrderedList, List.append_nil, List.mem_append, Bool.and_true, Bool.and_eq_true]
    refine ⟨?_, ((heapOrdered_iff t1).1 h1).2, h2⟩
    rintro x (hx | hx)
    · exact ((heapOrdered_iff t1).1 h1).1 x hx
    · exact PQEntry.le_trans_entry hle (root_le_of_heapOrdered h2 x hx)

end BinomialHeapPriorityQueue

/-! ## Forests and `merge` -/

namespace BinomialHeapPriorityQueue

open BinomialHeapNode

theorem forestEntries_append (a b : List (Option BinomialHeapNode)) :
    forestEntries (a ++ b) = forestEntries a ++ forestEntries b := by
  induction a with
  | nil => simp [forestEntries]
  | cons o a ih => cases o <;> simp [forestEntries, ih]

@[simp] theorem forestEntries_none : forestEntries [none] = [] := rfl

@[simp] theorem forestEntries_some (t : BinomialHeapNode) :
    forestEntries [some t] = t.entries := by simp [forestEntries]

theorem forestEntries_map_some (cs : List BinomialHeapNode) :
    forestEntries (cs.map some) = entriesList cs := by
  induction cs with
  | nil => simp [forestEntries, entriesList]
  | cons c cs ih => simp [forestEntries, entriesList, ih]

theorem forestEntries_take_succ (h : List (Option BinomialHeapNode)) (i : Nat) :
    forestEntries (h.take (i + 1)) = forestEntries (h.take i) ++ forestEntries [h.getD i none] := by
  rw [List.take_succ, forestEntries_append, List.getD_eq_getElem?_getD]
  cases h[i]? <;> simp [forestEntries]

theorem inBounds_iff (h : List (Option BinomialHeapNode)) (i : Nat) :
    inBounds h i = true ↔ i < h.length := by
  simp only [inBounds, ge_iff_le, decide_eq_true_eq]
  omega

theorem getD_none_of_not_inBounds (h : List (Option BinomialHeapNode)) (i : Nat)
    (hi : ¬ inBounds h i = true) : h.getD i none = none := by
  rw [inBounds_iff] at hi
  rw [List.getD_eq_getElem?_getD, List.getElem?_eq_none (by omega)]
  rfl

theorem possibleTrees_eq (h1 h2 : List (Option BinomialHeapNode))
    (c : Option BinomialHeapNode) (i : Nat) :
    possibleTrees h1 h2 c i
      = (h1.getD i none).toList ++ ((h2.getD i none).toList ++ c.toList) := by
  unfold possibleTrees
  have e1 : (if inBounds h1 i = true then (h1.getD i none).toList else [])
      = (h1.getD i none).toList := by
    split
    · rfl
    · rename_i hb; rw [getD_none_of_not_inBounds h1 i hb]; rfl
  have e2 : (if inBounds h2 i = true then (h2.getD i none).toList else [])
      = (h2.getD i none).toList := by
    split
    · rfl
    · rename_i hb; rw [getD_none_of_not_inBounds h2 i hb]; rfl
  rw [e1, e2]

theorem mergeTrees_entries_coe (t1 t2 : BinomialHeapNode) :
    ((mergeTrees t1 t2).entries : Multiset PQEntry)
      = (t1.entries : Multiset PQEntry) + (t2.entries : Multiset PQEntry) := by
  rw [Multiset.coe_add]
  exact Quot.sound (mergeTrees_entries_perm t1 t2)

theorem mergeStep_entries (h1 h2 : List (Option BinomialHeapNode))
    (st : List (Option BinomialHeapNode) × Option BinomialHeapNode) (i : Nat) :
    ((forestEntries (mergeStep h1 h2 st i).1 : Multiset PQEntry)
        + (forestEntries [(mergeStep h1 h2 st i).2] : Multiset PQEntry))
      = ((forestEntries st.1 : Multiset PQEntry) + (forestEntries [st.2] : Multiset PQEntry))
        + ((forestEntries [h1.getD i none] : Multiset PQEntry)
          + (forestEntries [h2.getD i none] : Multiset PQEntry)) := by
  obtain ⟨m, c⟩ := st
  unfold mergeStep
  rw [possibleTrees_eq]
  rcases h1.getD i none with _ | a <;> rcases h2.getD i none with _ | b <;> rcases c with _ | c <;>
    simp only [Option.toList, List.nil_append, List.append_nil, List.cons_append,
      forestEntries_append, forestEntries_none, forestEntries_some, ← Multiset.coe_add,
      mergeTrees_entries_coe, Multiset.coe_nil, add_zero, zero_add] <;>
    abel

theorem mergeLoop_entries (h1 h2 : List (Option BinomialHeapNode)) (n : Nat) :
    ((forestEntries (mergeLoop h1 h2 n).1 : Multiset PQEntry)
        + (forestEntries [(mergeLoop h1 h2 n).2] : Multiset PQEntry))
      = (forestEntries (h1.take n) : Multiset PQEntry)
        + (forestEntries (h2.take n) : Multiset PQEntry) := by
  unfold mergeLoop
  refine foldl_range_invariant (mergeStep h1 h2)
    (fun k st => ((forestEntries st.1 : Multiset PQEntry)
        + (forestEntries [st.2] : Multiset PQEntry))
      = (forestEntries (h1.take k) : Multiset PQEntry)
        + (forestEntries (h2.take k) : Multiset PQEntry)) _ n ?_ ?_
  · simp [forestEntries]
  · intro i st _ ih
    simp only [] at ih ⊢
    rw [mergeStep_entries, ih, forestEntries_take_succ h1, forestEntries_take_succ h2,
      ← Multiset.coe_add, ← Multiset.coe_add]
    abel

theorem merge_entries_coe (h1 h2 : List (Option BinomialHeapNode)) :
    (forestEntries (merge h1 h2) : Multiset PQEntry)
      = (forestEntries h1 : Multiset PQEntry) + (forestEntries h2 : Multiset PQEntry) := by
  have key := mergeLoop_entries h1 h2 (if h1.length > h2.length then h1.length else h2.length)
  have t1 : h1.take (if h1.length > h2.length then h1.length else h2.length) = h1 := by
    apply List.take_of_length_le; split <;> omega
  have t2 : h2.take (if h1.length > h2.length then h1.length else h2.length) = h2 := by
    apply List.take_of_length_le; split <;> omega
  rw [t1, t2] at key
  rw [← key]
  unfold merge
  simp only []
  cases (mergeLoop h1 h2 (if h1.length > h2.length then h1.length else h2.length)).2 with
  | none => simp
  | some c => simp [forestEntries_append]

theorem merge_entries_perm (h1 h2 : List (Option BinomialHeapNode)) :
    (forestEntries (merge h1 h2)).Perm (forestEntries h1 ++ forestEntries h2) := by
  have h := merge_entries_coe h1 h2
  rw [Multiset.coe_add] at h
  exact Quotient.exact h

end BinomialHeapPriorityQueue

namespace BinomialHeapPriorityQueue

open BinomialHeapNode

theorem forestHeapOrdered_append (a b : List (Option BinomialHeapNode)) :
    forestHeapOrdered (a ++ b) = (forestHeapOrdered a && forestHeapOrdered b) := by
  simp [forestHeapOrdered]

theorem forestHeapOrdered_getD {h : List (Option BinomialHeapNode)}
    (ho : forestHeapOrdered h = true) {i : Nat} {t : BinomialHeapNode}
    (ht : h.getD i none = some t) : t.heapOrdered = true := by
  rw [List.getD_eq_getElem?_getD] at ht
  have hm : some t ∈ h := by
    cases hq : h[i]? with
    | none => rw [hq] at ht; cases ht
    | some o =>
      rw [hq] at ht
      simp only [Option.getD_some] at ht
      subst ht
      exact List.getElem?_mem hq
  simp only [forestHeapOrdered, List.all_eq_true] at ho
  exact ho _ hm

theorem forestHeapOrdered_map_some {cs : List BinomialHeapNode}
    (h : heapOrderedList cs = true) : forestHeapOrdered (cs.map some) = true := by
  simp only [forestHeapOrdered, List.all_eq_true, List.mem_map, forall_exists_index, and_imp]
  rintro o c hc rfl
  exact heapOrderedList_mem h c hc

theorem forestHeapOrdered_eraseIdx {h : List (Option BinomialHeapNode)}
    (ho : forestHeapOrdered h = true) (i : Nat) : forestHeapOrdered (h.eraseIdx i) = true := by
  simp only [forestHeapOrdered, List.all_eq_true] at ho ⊢
  intro o hm
  exact ho o (List.mem_of_mem_eraseIdx hm)

theorem mergeStep_heapOrdered {h1 h2 : List (Option BinomialHeapNode)}
    (o1 : forestHeapOrdered h1 = true) (o2 : forestHeapOrdered h2 = true)
    (st : List (Option BinomialHeapNode) × Option BinomialHeapNode) (i : Nat)
    (hs : forestHeapOrdered st.1 = true ∧ forestHeapOrdered [st.2] = true) :
    forestHeapOrdered (mergeStep h1 h2 st i).1 = true ∧
      forestHeapOrdered [(mergeStep h1 h2 st i).2] = true := by
  obtain ⟨m, c⟩ := st
  obtain ⟨hm, hc⟩ := hs
  have ha : ∀ t, h1.getD i none = some t → t.heapOrdered = true :=
    fun _ ht => forestHeapOrdered_getD o1 ht
  have hb : ∀ t, h2.getD i none = some t → t.heapOrdered = true :=
    fun _ ht => forestHeapOrdered_getD o2 ht
  unfold mergeStep
  rw [possibleTrees_eq]
  simp only [] at hm hc
  rcases hA : h1.getD i none with _ | a <;> rcases hB : h2.getD i none with _ | b <;>
    rcases c with _ | c <;>
    simp only [Option.toList, List.nil_append, List.append_nil, List.cons_append,
      forestHeapOrdered_append, Bool.and_eq_true, hm, true_and] <;>
    simp only [forestHeapOrdered, List.all_cons, List.all_nil, Bool.and_true, and_self,
      and_true, true_and] at hc ⊢
  · exact hc
  · exact hb b hB
  · exact mergeTrees_heapOrdered (hb b hB) hc
  · exact ha a hA
  · exact mergeTrees_heapOrdered (ha a hA) hc
  · exact mergeTrees_heapOrdered (ha a hA) (hb b hB)
  · exact ⟨hc, mergeTrees_heapOrdered (ha a hA) (hb b hB)⟩

theorem merge_heapOrdered {h1 h2 : List (Option BinomialHeapNode)}
    (o1 : forestHeapOrdered h1 = true) (o2 : forestHeapOrdered h2 = true) :
    forestHeapOrdered (merge h1 h2) = true := by
  have key : ∀ n, forestHeapOrdered (mergeLoop h1 h2 n).1 = true ∧
      forestHeapOrdered [(mergeLoop h1 h2 n).2] = true := by
    intro n
    unfold mergeLoop
    refine foldl_range_invariant (mergeStep h1 h2)
      (fun _ st => forestHeapOrdered st.1 = true ∧ forestHeapOrdered [st.2] = true) _ n ?_ ?_
    · simp [forestHeapOrdered]
    · intro i st _ ih
      exact mergeStep_heapOrdered o1 o2 st i ih
  have k := key (if h1.length > h2.length then h1.length else h2.length)
  unfold merge
  simp only []
  cases hc : (mergeLoop h1 h2 (if h1.length > h2.length then h1.length else h2.length)).2 with
  | none => exact k.1
  | some c =>
    rw [hc] at k
    simp only [forestHeapOrdered_append, Bool.and_eq_true]
    exact ⟨k.1, k.2⟩

end BinomialHeapPriorityQueue

namespace BinomialHeapPriorityQueue

open BinomialHeapNode

theorem getD_some_lt {h : List (Option BinomialHeapNode)} {i : Nat} {t : BinomialHeapNode}
    (ht : h.getD i none = some t) : i < h.length := by
  by_contra hlt
  rw [List.getD_eq_getElem?_getD, List.getElem?_eq_none (by omega)] at ht
  cases ht

theorem mergeStep_length (h1 h2 : List (Option BinomialHeapNode))
    (st : List (Option BinomialHeapNode) × Option BinomialHeapNode) (i : Nat) :
    (mergeStep h1 h2 st i).1.length = st.1.length + 1 := by
  unfold mergeStep
  split <;> simp

theorem mergeLoop_length (h1 h2 : List (Option BinomialHeapNode)) (n : Nat) :
    (mergeLoop h1 h2 n).1.length = n := by
  unfold mergeLoop
  refine foldl_range_invariant (mergeStep h1 h2) (fun k st => st.1.length = k) _ n ?_ ?_
  · simp
  · intro i st _ ih
    simp only [] at ih ⊢
    rw [mergeStep_length, ih]

theorem mergeLoop_carry (h1 h2 : List (Option BinomialHeapNode)) (n : Nat) :
    (mergeLoop h1 h2 n).2.isSome = true →
      1 + (n - h1.length) ≤ (forestEntries (h2.take n)).length := by
  unfold mergeLoop
  refine foldl_range_invariant (mergeStep h1 h2)
    (fun k st => st.2.isSome = true →
      1 + (k - h1.length) ≤ (forestEntries (h2.take k)).length) _ n ?_ ?_
  · simp
  · intro i st _ ih
    obtain ⟨m, c⟩ := st
    simp only [] at ih ⊢
    rw [forestEntries_take_succ, List.length_append]
    unfold mergeStep
    rw [possibleTrees_eq]
    rcases hA : h1.getD i none with _ | a <;> rcases hB : h2.getD i none with _ | b <;>
      rcases c with _ | c <;>
      simp only [Option.toList, List.nil_append, List.append_nil, List.cons_append,
        Option.isSome_none, Option.isSome_some, forestEntries_none, forestEntries_some,
        List.length_nil, Bool.false_eq_true, false_implies, true_implies, forall_const] at ih ⊢
    · have := entries_length_pos b
      omega
    · have := getD_some_lt hA
      omega
    · have := getD_some_lt hA
      have := entries_length_pos b
      omega
    · have := getD_some_lt hA
      have := entries_length_pos b
      omega

theorem merge_length_le (h1 h2 : List (Option BinomialHeapNode)) :
    (merge h1 h2).length ≤ max h2.length (h1.length + (forestEntries h2).length) := by
  have hl := mergeLoop_length h1 h2 (if h1.length > h2.length then h1.length else h2.length)
  have hc := mergeLoop_carry h1 h2 (if h1.length > h2.length then h1.length else h2.length)
  have t2 : h2.take (if h1.length > h2.length then h1.length else h2.length) = h2 := by
    apply List.take_of_length_le; split <;> omega
  rw [t2] at hc
  unfold merge
  simp only []
  cases hq : (mergeLoop h1 h2 (if h1.length > h2.length then h1.length else h2.length)).2 with
  | none =>
    simp only [hl]
    split <;> omega
  | some c =>
    rw [hq] at hc
    have hc' := hc rfl
    simp only [List.length_append, hl, List.length_singleton]
    by_cases hgt : h1.length > h2.length
    · rw [if_pos hgt] at hc' ⊢; omega
    · rw [if_neg hgt] at hc' ⊢; omega

/-! ## The root scan -/

theorem getDequeuedRoot_spec (h : List (Option BinomialHeapNode)) :
    ((getDequeuedRoot h).1 = none ∧ ∀ j, j < h.length → h.getD j none = none) ∨
      (∃ r, (getDequeuedRoot h).1 = some r ∧ h.getD (getDequeuedRoot h).2 none = some r ∧
        ∀ j t, h.getD j none = some t → PQEntry.le r.entry t.entry = true) := by
  have key : ∀ n, ((((List.range n).foldl (getDequeuedRootStep h) (none, 0)).1 = none ∧
        ∀ j, j < n → h.getD j none = none) ∨
      (∃ r, ((List.range n).foldl (getDequeuedRootStep h) (none, 0)).1 = some r ∧
        h.getD ((List.range n).foldl (getDequeuedRootStep h) (none, 0)).2 none = some r ∧
        ∀ j t, j < n → h.getD j none = some t → PQEntry.le r.entry t.entry = true)) := by
    intro n
    refine foldl_range_invariant (getDequeuedRootStep h)
      (fun k st => (st.1 = none ∧ ∀ j, j < k → h.getD j none = none) ∨
        (∃ r, st.1 = some r ∧ h.getD st.2 none = some r ∧
          ∀ j t, j < k → h.getD j none = some t → PQEntry.le r.entry t.entry = true))
      _ n ?_ ?_
    · left; simp
    · intro i st _ ih
      obtain ⟨root, idx⟩ := st
      simp only [] at ih ⊢
      unfold getDequeuedRootStep
      rcases hI : h.getD i none with _ | t
      · simp only []
        rcases ih with ⟨h1, h2⟩ | ⟨r, h1, h2, h3⟩
        · left
          refine ⟨h1, fun j hj => ?_⟩
          rcases Nat.lt_succ_iff_lt_or_eq.1 hj with hj | rfl
          · exact h2 j hj
          · exact hI
        · right
          refine ⟨r, h1, h2, fun j t hj ht => ?_⟩
          rcases Nat.lt_succ_iff_lt_or_eq.1 hj with hj | rfl
          · exact h3 j t hj ht
          · rw [hI] at ht; cases ht
      · right
        rcases ih with ⟨h1, h2⟩ | ⟨r, h1, h2, h3⟩
        · subst h1
          refine ⟨t, rfl, hI, fun j u hj hu => ?_⟩
          rcases Nat.lt_succ_iff_lt_or_eq.1 hj with hj | rfl
          · rw [h2 j hj] at hu; cases hu
          · rw [hI] at hu; cases hu; exact PQEntry.le_rfl_entry _
        · subst h1
          simp only []
          by_cases hge : PQEntry.ge r.entry t.entry = true
          · rw [if_pos hge]
            have hle : PQEntry.le t.entry r.entry = true := (PQEntry.ge_iff_le _ _).1 hge
            refine ⟨t, rfl, hI, fun j u hj hu => ?_⟩
            rcases Nat.lt_succ_iff_lt_or_eq.1 hj with hj | rfl
            · exact PQEntry.le_trans_entry hle (h3 j u hj hu)
            · rw [hI] at hu; cases hu; exact PQEntry.le_rfl_entry _
          · rw [if_neg hge]
            have hlt : PQEntry.lt r.entry t.entry = true := by
              simpa [PQEntry.ge] using hge
            refine ⟨r, rfl, h2, fun j u hj hu => ?_⟩
            rcases Nat.lt_succ_iff_lt_or_eq.1 hj with hj | rfl
            · exact h3 j u hj hu
            · rw [hI] at hu; cases hu; exact PQEntry.le_of_lt_entry hlt
  rcases key h.length with ⟨h1, h2⟩ | ⟨r, h1, h2, h3⟩
  · exact Or.inl ⟨h1, h2⟩
  · exact Or.inr ⟨r, h1, h2, fun j t ht => h3 j t (getD_some_lt ht) ht⟩

end BinomialHeapPriorityQueue

/-! ## `dequeue` -/

namespace BinomialHeapPriorityQueue

open BinomialHeapNode

theorem forestEntries_eraseIdx {h : List (Option BinomialHeapNode)} {i : Nat}
    {r : BinomialHeapNode} (hr : h.getD i none = some r) :
    (forestEntries h).Perm (r.entries ++ forestEntries (h.eraseIdx i)) := by
  induction h generalizing i with
  | nil => simp at hr
  | cons o h ih =>
    cases i with
    | zero =>
      simp only [List.getD_cons_zero] at hr
      subst hr
      simp [forestEntries]
    | succ k =>
      simp only [List.getD_cons_succ] at hr
      have ih' := ih hr
      cases o with
      | none => simpa [forestEntries] using ih'
      | some t =>
        simp only [forestEntries, List.eraseIdx_cons_succ]
        refine (List.Perm.append_left t.entries ih').trans ?_
        rw [← List.append_assoc, ← List.append_assoc]
        exact List.Perm.append_right _ List.perm_append_comm

theorem forestEntries_mem {h : List (Option BinomialHeapNode)} {x : PQEntry}
    (hx : x ∈ forestEntries h) : ∃ j t, h.getD j none = some t ∧ x ∈ t.entries := by
  induction h with
  | nil => simp [forestEntries] at hx
  | cons o h ih =>
    cases o with
    | none =>
      obtain ⟨j, t, h1, h2⟩ := ih (by simpa [forestEntries] using hx)
      exact ⟨j + 1, t, by simpa using h1, h2⟩
    | some u =>
      simp only [forestEntries, List.mem_append] at hx
      rcases hx with hx | hx
      · exact ⟨0, u, by simp, hx⟩
      · obtain ⟨j, t, h1, h2⟩ := ih hx
        exact ⟨j + 1, t, by simpa using h1, h2⟩

theorem forestEntries_getD_sub {h : List (Option BinomialHeapNode)} {j : Nat}
    {t : BinomialHeapNode} (ht : h.getD j none = some t) : ∀ x ∈ t.entries, x ∈ forestEntries h :=
  fun _ hx => (forestEntries_eraseIdx ht).symm.subset (List.mem_append_left _ hx)

/-- The forest `dequeue` leaves when the scan has selected the root `r` at `idx`. -/
theorem dequeue_post {h : List (Option BinomialHeapNode)} {idx : Nat} {r : BinomialHeapNode}
    (hr : h.getD idx none = some r) :
    (r.entry :: forestEntries (merge (r.children.map some) (h.eraseIdx idx))).Perm
        (forestEntries h) ∧
      (forestHeapOrdered h = true →
        forestHeapOrdered (merge (r.children.map some) (h.eraseIdx idx)) = true) ∧
      (h.length ≤ (forestEntries h).length →
        (merge (r.children.map some) (h.eraseIdx idx)).length
          ≤ (forestEntries (merge (r.children.map some) (h.eraseIdx idx))).length) := by
  have hperm : (r.entry :: forestEntries (merge (r.children.map some) (h.eraseIdx idx))).Perm
      (forestEntries h) := by
    refine (List.Perm.cons _ (merge_entries_perm _ _)).trans ?_
    rw [forestEntries_map_some]
    refine List.Perm.trans ?_ (forestEntries_eraseIdx hr).symm
    rw [entries_eq r]
    simp
  refine ⟨hperm, ?_, ?_⟩
  · intro ho
    refine merge_heapOrdered (forestHeapOrdered_map_some ?_) (forestHeapOrdered_eraseIdx ho idx)
    exact ((heapOrdered_iff r).1 (forestHeapOrdered_getD ho hr)).2
  · intro hle
    have hlen := hperm.length_eq
    have hm := merge_length_le (r.children.map some) (h.eraseIdx idx)
    have hme := (merge_entries_perm (r.children.map some) (h.eraseIdx idx)).length_eq
    have hk := children_length_le r.children
    have hlt := getD_some_lt hr
    have he : (h.eraseIdx idx).length = h.length - 1 := List.length_eraseIdx_of_lt hlt
    rw [forestEntries_map_some] at hme
    simp only [List.length_cons, List.length_append, List.length_map] at hlen hme hm
    omega

theorem dequeue_of_root {q : BinomialHeapPriorityQueue} {r : BinomialHeapNode}
    (h1 : (getDequeuedRoot q.heap).1 = some r)
    (h2 : q.heap.getD (getDequeuedRoot q.heap).2 none = some r) :
    dequeue q = Except.ok (r.entry.value,
      ⟨merge (r.children.map some) (q.heap.eraseIdx (getDequeuedRoot q.heap).2)⟩) := by
  have hlt := getD_some_lt h2
  unfold dequeue
  rw [if_neg (by omega)]
  rcases hg : getDequeuedRoot q.heap with ⟨root, idx⟩
  rw [hg] at h1 h2
  simp only [] at h1 h2
  subst h1
  simp only [h2]

theorem root_of_dequeue {q q' : BinomialHeapPriorityQueue} {v : String}
    (hd : dequeue q = Except.ok (v, q')) :
    ∃ r, (getDequeuedRoot q.heap).1 = some r ∧
      q.heap.getD (getDequeuedRoot q.heap).2 none = some r := by
  unfold dequeue at hd
  split at hd
  · cases hd
  · rcases getDequeuedRoot_spec q.heap with ⟨h1, _⟩ | ⟨r, h1, h2, _⟩
    · rcases hg : getDequeuedRoot q.heap with ⟨root, idx⟩
      rw [hg] at h1 hd
      simp only [] at h1
      subst h1
      simp at hd
    · exact ⟨r, h1, h2⟩

theorem scan_of_entries {q : BinomialHeapPriorityQueue} (hne : entries q ≠ []) :
    ∃ r, (getDequeuedRoot q.heap).1 = some r ∧
      q.heap.getD (getDequeuedRoot q.heap).2 none = some r ∧
      ∀ j t, q.heap.getD j none = some t → PQEntry.le r.entry t.entry = true := by
  rcases getDequeuedRoot_spec q.heap with ⟨_, h2⟩ | h
  · exfalso
    obtain ⟨x, hx⟩ := List.exists_mem_of_ne_nil _ hne
    obtain ⟨j, t, hj, _⟩ := forestEntries_mem hx
    rw [h2 j (getD_some_lt hj)] at hj
    cases hj
  · exact h

theorem root_minimal {h : List (Option BinomialHeapNode)} {r : BinomialHeapNode}
    (ho : forestHeapOrdered h = true)
    (hmin : ∀ j t, h.getD j none = some t → PQEntry.le r.entry t.entry = true) :
    ∀ x ∈ forestEntries h, PQEntry.le r.entry x = true := by
  intro x hx
  obtain ⟨j, t, hj, hxt⟩ := forestEntries_mem hx
  exact PQEntry.le_trans_entry (hmin j t hj)
    (root_le_of_heapOrdered (forestHeapOrdered_getD ho hj) x hxt)

theorem inv_fresh : Inv fresh := by
  simp [Inv, fresh, forestHeapOrdered, entries, forestEntries]

theorem inv_enqueue {q : BinomialHeapPriorityQueue} (hq : Inv q) (value : String)
    (priority : Int) : Inv (q.enqueue value priority) := by
  obtain ⟨ho, hl⟩ := hq
  refine ⟨merge_heapOrdered ?_ ho, ?_⟩
  · simp [forestHeapOrdered, heapOrdered, entriesList, heapOrderedList]
  · have hm := merge_length_le [some (BinomialHeapNode.mk ⟨value, priority⟩ [])] q.heap
    have hme := (merge_entries_perm [some (BinomialHeapNode.mk ⟨value, priority⟩ [])]
      q.heap).length_eq
    simp only [entries, enqueue] at hl ⊢
    simp only [forestEntries_some, BinomialHeapNode.entries, entriesList, List.length_append,
      List.length_singleton] at hme hm
    omega

theorem inv_dequeue {q q' : BinomialHeapPriorityQueue} {v : String} (hq : Inv q)
    (hd : dequeue q = Except.ok (v, q')) : Inv q' := by
  obtain ⟨r, h1, h2⟩ := root_of_dequeue hd
  rw [dequeue_of_root h1 h2] at hd
  simp only [Except.ok.injEq, Prod.mk.injEq] at hd
  obtain ⟨_, rfl⟩ := hd
  obtain ⟨_, p2, p3⟩ := dequeue_post h2
  exact ⟨p2 hq.1, p3 hq.2⟩

theorem inv_of_reachable {q : BinomialHeapPriorityQueue} (hq : Reachable q) : Inv q := by
  induction hq with
  | fresh => exact inv_fresh
  | enqueue value priority _ ih => exact inv_enqueue ih value priority
  | dequeue _ hd ih => exact inv_dequeue ih hd
  | clear _ _ => exact inv_fresh

end BinomialHeapPriorityQueue

/-! ## The contract of the binomial-heap queue -/

namespace BinomialHeapPriorityQueue

open BinomialHeapNode

theorem peek_of_root {q : BinomialHeapPriorityQueue} {r : BinomialHeapNode}
    (h1 : (getDequeuedRoot q.heap).1 = some r)
    (h2 : q.heap.getD (getDequeuedRoot q.heap).2 none = some r) :
    peek q = Except.ok r.entry.value ∧ peekPriority q = Except.ok r.entry.priority := by
  have hlt := getD_some_lt h2
  unfold peek peekPriority
  rw [if_neg (by omega), if_neg (by omega), h1]
  exact ⟨rfl, rfl⟩

/-- C1: in every reachable state that holds at least one entry, `dequeue` returns the
value of an entry that is held and is minimal under the entry order among all entries
held, and the entries held afterwards are those held before with one occurrence of
that entry removed. -/
theorem dequeue_returns_minimum (q : BinomialHeapPriorityQueue) (hq : Reachable q)
    (hne : entries q ≠ []) :
    ∃ e q', dequeue q = Except.ok (e.value, q') ∧ e ∈ entries q ∧
      (∀ x ∈ entries q, PQEntry.le e x = true) ∧ (e :: entries q').Perm (entries q) := by
  obtain ⟨r, h1, h2, h3⟩ := scan_of_entries hne
  refine ⟨r.entry, _, dequeue_of_root h1 h2, ?_, ?_, (dequeue_post h2).1⟩
  · exact forestEntries_getD_sub h2 _ (by rw [entries_eq]; simp)
  · exact root_minimal (inv_of_reachable hq).1 h3

theorem dequeue_returns_minimum_witness :
    Reachable ((fresh.enqueue "a" 5).enqueue "b" 3) ∧
      entries ((fresh.enqueue "a" 5).enqueue "b" 3) ≠ [] ∧
      ∃ e q', dequeue ((fresh.enqueue "a" 5).enqueue "b" 3) = Except.ok (e.value, q') ∧
        e ∈ entries ((fresh.enqueue "a" 5).enqueue "b" 3) ∧
        (∀ x ∈ entries ((fresh.enqueue "a" 5).enqueue "b" 3), PQEntry.le e x = true) ∧
        (e :: entries q').Perm (entries ((fresh.enqueue "a" 5).enqueue "b" 3)) :=
  ⟨Reachable.enqueue "b" 3 (Reachable.enqueue "a" 5 Reachable.fresh), by decide,
    dequeue_returns_minimum _ (Reachable.enqueue "b" 3 (Reachable.enqueue "a" 5 Reachable.fresh))
      (by decide)⟩

end BinomialHeapPriorityQueue

namespace BinomialHeapPriorityQueue

open BinomialHeapNode

theorem heap_nil_of_entries_nil {q : BinomialHeapPriorityQueue} (hq : Inv q)
    (he : entries q = []) : q = fresh := by
  have hl := hq.2
  rw [he] at hl
  cases q with
  | mk heap =>
    have : heap = [] := List.length_eq_zero.1 (Nat.le_zero.1 hl)
    subst this
    rfl

theorem entries_enqueue_perm (q : BinomialHeapPriorityQueue) (value : String) (priority : Int) :
    (entries (q.enqueue value priority)).Perm (⟨value, priority⟩ :: entries q) := by
  have h := merge_entries_perm [some (BinomialHeapNode.mk ⟨value, priority⟩ [])] q.heap
  simpa [entries, enqueue, BinomialHeapNode.entries, entriesList] using h

theorem inv_enqueueAll (l : List (String × Int)) :
    ∀ q : BinomialHeapPriorityQueue, Inv q → Inv (enqueueAll q l) := by
  induction l with
  | nil => intro q hq; exact hq
  | cons p l ih => intro q hq; exact ih _ (inv_enqueue hq p.1 p.2)

theorem reachable_enqueueAll (l : List (String × Int)) :
    ∀ q : BinomialHeapPriorityQueue, Reachable q → Reachable (enqueueAll q l) := by
  induction l with
  | nil => intro q hq; exact hq
  | cons p l ih => intro q hq; exact ih _ (Reachable.enqueue p.1 p.2 hq)

theorem entries_enqueueAll_perm (l : List (String × Int)) :
    ∀ q : BinomialHeapPriorityQueue,
      (entries (enqueueAll q l)).Perm (entries q ++ l.map toEntry) := by
  induction l with
  | nil => intro q; simp [enqueueAll]
  | cons p l ih =>
    intro q
    have h1 := ih (q.enqueue p.1 p.2)
    have h2 := entries_enqueue_perm q p.1 p.2
    refine h1.trans ((List.Perm.append_right _ h2).trans ?_)
    simp only [List.map_cons, toEntry, List.cons_append]
    exact List.perm_middle.symm

/-- Draining a queue that holds `n` entries: `n` calls of `dequeue` all return, the
entries they return are the entries held, in sorted order, and the queue ends as a
fresh one. -/
theorem dequeueN_drain (n : Nat) :
    ∀ q : BinomialHeapPriorityQueue, Inv q → (entries q).length = n →
      ∃ es : List PQEntry, dequeueN n q = Except.ok (es.map PQEntry.value, fresh) ∧
        es.Perm (entries q) ∧ es.Sorted (fun a b => PQEntry.le a b = true) := by
  induction n with
  | zero =>
    intro q hq hn
    have he : entries q = [] := List.length_eq_zero.1 hn
    refine ⟨[], ?_, by rw [he], List.sorted_nil⟩
    rw [heap_nil_of_entries_nil hq he]
    rfl
  | succ k ih =>
    intro q hq hn
    have hne : entries q ≠ [] := by
      intro h; rw [h] at hn; simp at hn
    obtain ⟨r, h1, h2, h3⟩ := scan_of_entries hne
    have hd := dequeue_of_root h1 h2
    obtain ⟨p1, p2, p3⟩ := dequeue_post h2
    have hmin := root_minimal hq.1 h3
    have hq' : Inv ⟨merge (r.children.map some) (q.heap.eraseIdx (getDequeuedRoot q.heap).2)⟩ :=
      ⟨p2 hq.1, p3 hq.2⟩
    have hlen : (entries (⟨merge (r.children.map some)
        (q.heap.eraseIdx (getDequeuedRoot q.heap).2)⟩ : BinomialHeapPriorityQueue)).length = k := by
      have := p1.length_eq
      simp only [List.length_cons] at this
      simp only [entries] at hn ⊢
      omega
    obtain ⟨es, e1, e2, e3⟩ := ih _ hq' hlen
    refine ⟨r.entry :: es, ?_, ?_, ?_⟩
    · simp only [dequeueN, hd, e1, List.map_cons]
    · exact (List.Perm.cons _ e2).trans p1
    · refine List.sorted_cons.2 ⟨fun b hb => ?_, e3⟩
      exact hmin b (p1.subset (List.mem_cons_of_mem _ (e2.subset hb)))

theorem le_sorted_unique {l1 l2 : List PQEntry} (hp : l1.Perm l2)
    (h1 : l1.Sorted (fun a b => PQEntry.le a b = true))
    (h2 : l2.Sorted (fun a b => PQEntry.le a b = true)) : l1 = l2 := by
  haveI : IsAntisymm PQEntry (fun a b => PQEntry.le a b = true) :=
    ⟨fun _ _ hab hba => PQEntry.le_antisymm_entry hab hba⟩
  exact List.eq_of_perm_of_sorted hp h1 h2

theorem sortedEntries_sorted (l : List PQEntry) :
    (sortedEntries l).Sorted (fun a b => PQEntry.le a b = true) := by
  haveI : IsTotal PQEntry (fun a b => PQEntry.le a b = true) :=
    ⟨fun a b => PQEntry.le_total_entry a b⟩
  haveI : IsTrans PQEntry (fun a b => PQEntry.le a b = true) :=
    ⟨fun _ _ _ hab hbc => PQEntry.le_trans_entry hab hbc⟩
  exact List.sorted_insertionSort _ l

theorem sortedEntries_perm (l : List PQEntry) : (sortedEntries l).Perm l :=
  List.perm_insertionSort _ l

theorem dequeueN_enqueueAll (l : List (String × Int)) :
    dequeueN l.length (enqueueAll fresh l)
      = Except.ok ((sortedEntries (l.map toEntry)).map PQEntry.value, fresh) := by
  have hinv := inv_enqueueAll l fresh inv_fresh
  have hperm := entries_enqueueAll_perm l fresh
  have hlen : (entries (enqueueAll fresh l)).length = l.length := by
    rw [hperm.length_eq]; simp [entries, fresh, forestEntries]
  obtain ⟨es, e1, e2, e3⟩ := dequeueN_drain l.length _ hinv hlen
  have hes : es = sortedEntries (l.map toEntry) := by
    refine le_sorted_unique ?_ e3 (sortedEntries_sorted _)
    refine (e2.trans hperm).trans ?_
    simpa [entries, fresh, forestEntries] using (sortedEntries_perm (l.map toEntry)).symm
  rw [e1, hes]

/-- C2: for every list of (value, priority) pairs enqueued in order into a fresh queue,
one call of `dequeue` per pair returns every time, and the values returned are those of
the input sorted by priority ascending, then value ascending; the pairs ("a",5),
("b",3), ("c",3), ("d",8) come out as "b", "c", "a", "d". -/
theorem sorted_extraction :
    (∀ l : List (String × Int),
      dequeueN l.length (enqueueAll fresh l)
        = Except.ok ((sortedEntries (l.map toEntry)).map PQEntry.value, fresh)) ∧
    dequeueN 4 (enqueueAll fresh [("a", 5), ("b", 3), ("c", 3), ("d", 8)])
      = Except.ok (["b", "c", "a", "d"], fresh) :=
  ⟨dequeueN_enqueueAll, by
    rw [show (4 : Nat) = [("a", (5 : Int)), ("b", 3), ("c", 3), ("d", 8)].length from rfl,
      dequeueN_enqueueAll]
    have hs : (sortedEntries ([("a", (5 : Int)), ("b", 3), ("c", 3), ("d", 8)].map toEntry)).map
        PQEntry.value = ["b", "c", "a", "d"] := by decide
    rw [hs]⟩

end BinomialHeapPriorityQueue

namespace BinomialHeapPriorityQueue

open BinomialHeapNode

/-- C3: after `enqueue("b",2)`, `enqueue("c",3)`, `enqueue("a",1)` the call of
`dequeue` returns "a" and leaves two entries, yet `size` then returns 1: the removal
of slot 0 has moved the two-entry tree from slot 1 to slot 0. -/
theorem size_after_dequeue_below_a_tree :
    dequeue (((fresh.enqueue "b" 2).enqueue "c" 3).enqueue "a" 1)
        = Except.ok ("a", ⟨[some (BinomialHeapNode.mk ⟨"b", 2⟩ [BinomialHeapNode.mk ⟨"c", 3⟩ []])]⟩) ∧
      size ⟨[some (BinomialHeapNode.mk ⟨"b", 2⟩ [BinomialHeapNode.mk ⟨"c", 3⟩ []])]⟩ = 1 ∧
      (entries ⟨[some (BinomialHeapNode.mk ⟨"b", 2⟩ [BinomialHeapNode.mk ⟨"c", 3⟩ []])]⟩).length
        = 3 - 1 :=
  ⟨by rfl, by decide, by decide⟩

/-- C4: in every reachable state that holds at least one entry, `peek` returns the
value and `peekPriority` the priority of one and the same held entry, which is
minimal under the entry order among all entries held, and both calls leave the queue
as it was. -/
theorem peek_returns_minimum (q : BinomialHeapPriorityQueue) (hq : Reachable q)
    (hne : entries q ≠ []) :
    ∃ e, e ∈ entries q ∧ (∀ x ∈ entries q, PQEntry.le e x = true) ∧
      call q Call.peek = (Reply.value e.value, q) ∧
      call q Call.peekPriority = (Reply.number e.priority, q) := by
  obtain ⟨r, h1, h2, h3⟩ := scan_of_entries hne
  obtain ⟨p1, p2⟩ := peek_of_root h1 h2
  refine ⟨r.entry, ?_, root_minimal (inv_of_reachable hq).1 h3, ?_, ?_⟩
  · exact forestEntries_getD_sub h2 _ (by rw [entries_eq]; simp)
  · simp only [call, p1]
  · simp only [call, p2]

theorem peek_returns_minimum_witness :
    Reachable ((fresh.enqueue "a" 5).enqueue "b" 3) ∧
      entries ((fresh.enqueue "a" 5).enqueue "b" 3) ≠ [] ∧
      ∃ e, e ∈ entries ((fresh.enqueue "a" 5).enqueue "b" 3) ∧
        (∀ x ∈ entries ((fresh.enqueue "a" 5).enqueue "b" 3), PQEntry.le e x = true) ∧
        call ((fresh.enqueue "a" 5).enqueue "b" 3) Call.peek
          = (Reply.value e.value, (fresh.enqueue "a" 5).enqueue "b" 3) ∧
        call ((fresh.enqueue "a" 5).enqueue "b" 3) Call.peekPriority
          = (Reply.number e.priority, (fresh.enqueue "a" 5).enqueue "b" 3) :=
  ⟨Reachable.enqueue "b" 3 (Reachable.enqueue "a" 5 Reachable.fresh), by decide,
    peek_returns_minimum _ (Reachable.enqueue "b" 3 (Reachable.enqueue "a" 5 Reachable.fresh))
      (by decide)⟩

/-- C5: on a fresh queue, and on the queue left by `n` enqueues followed by `n`
dequeues (which all return), each of `dequeue`, `peek` and `peekPriority` raises the
empty-queue error and leaves the queue as it was. -/
theorem empty_queue_contract :
    (call fresh Call.dequeue = (Reply.raised QueueError.emptyQueue, fresh) ∧
      call fresh Call.peek = (Reply.raised QueueError.emptyQueue, fresh) ∧
      call fresh Call.peekPriority = (Reply.raised QueueError.emptyQueue, fresh)) ∧
    ∀ l : List (String × Int), ∃ values q,
      dequeueN l.length (enqueueAll fresh l) = Except.ok (values, q) ∧
        call q Call.dequeue = (Reply.raised QueueError.emptyQueue, q) ∧
        call q Call.peek = (Reply.raised QueueError.emptyQueue, q) ∧
        call q Call.peekPriority = (Reply.raised QueueError.emptyQueue, q) :=
  ⟨⟨rfl, rfl, rfl⟩, fun l => ⟨_, fresh, dequeueN_enqueueAll l, rfl, rfl, rfl⟩⟩

theorem entries_ne_nil_of_heap {q : BinomialHeapPriorityQueue} (hq : Inv q)
    (hl : q.heap.length ≠ 0) : entries q ≠ [] := by
  intro he
  have := hq.2
  rw [he] at this
  simp only [List.length_nil, Nat.le_zero] at this
  exact hl this

theorem all_none_iff_heap_nil {q : BinomialHeapPriorityQueue} (hq : Inv q) :
    (∀ o ∈ q.heap, o = none) ↔ q.heap.length = 0 := by
  constructor
  · intro hall
    by_contra hl
    obtain ⟨r, _, h2, _⟩ := scan_of_entries (entries_ne_nil_of_heap hq hl)
    have hlt := getD_some_lt h2
    rw [List.getD_eq_getElem?_getD, List.getElem?_eq_getElem hlt] at h2
    simp only [Option.getD_some] at h2
    have := hall _ (List.getElem_mem hlt)
    rw [h2] at this
    cases this
  · intro hl o ho
    rw [List.length_eq_zero.1 hl] at ho
    cases ho

/-- C6: in every reachable state each of `dequeue`, `peek` and `peekPriority` raises
the empty-queue error exactly when no slot of `heap` is occupied; whenever `heap` has
a slot the root scan ends on an occupied slot, and no `NULL` root is ever read. -/
theorem emptyQueue_iff_no_slot_occupied (q : BinomialHeapPriorityQueue) (hq : Reachable q) :
    (dequeue q = Except.error QueueError.emptyQueue ↔ ∀ o ∈ q.heap, o = none) ∧
      (peek q = Except.error QueueError.emptyQueue ↔ ∀ o ∈ q.heap, o = none) ∧
      (peekPriority q = Except.error QueueError.emptyQueue ↔ ∀ o ∈ q.heap, o = none) ∧
      (q.heap.length ≠ 0 → ∃ r, (getDequeuedRoot q.heap).1 = some r ∧
        q.heap.getD (getDequeuedRoot q.heap).2 none = some r) ∧
      dequeue q ≠ Except.error QueueError.nullDereference ∧
      peek q ≠ Except.error QueueError.nullDereference ∧
      peekPriority q ≠ Except.error QueueError.nullDereference := by
  have hinv := inv_of_reachable hq
  rw [all_none_iff_heap_nil hinv]
  by_cases hl : q.heap.length = 0
  · have hd : dequeue q = Except.error QueueError.emptyQueue := by
      unfold dequeue; rw [if_pos hl]
    have hp : peek q = Except.error QueueError.emptyQueue := by
      unfold peek; rw [if_pos hl]
    have hpp : peekPriority q = Except.error QueueError.emptyQueue := by
      unfold peekPriority; rw [if_pos hl]
    rw [hd, hp, hpp]
    simp [hl]
  · obtain ⟨r, h1, h2, _⟩ := scan_of_entries (entries_ne_nil_of_heap hinv hl)
    obtain ⟨p1, p2⟩ := peek_of_root h1 h2
    rw [dequeue_of_root h1 h2, p1, p2]
    simp only [hl, iff_false, not_false_eq_true, ne_eq, true_and, forall_const]
    exact ⟨by simp, by simp, by simp, ⟨r, h1, h2⟩, by simp, by simp, by simp⟩

theorem emptyQueue_iff_no_slot_occupied_witness :
    Reachable (fresh.enqueue "a" 5) ∧
      (dequeue (fresh.enqueue "a" 5) = Except.error QueueError.emptyQueue
        ↔ ∀ o ∈ (fresh.enqueue "a" 5).heap, o = none) ∧
      (peek (fresh.enqueue "a" 5) = Except.error QueueError.emptyQueue
        ↔ ∀ o ∈ (fresh.enqueue "a" 5).heap, o = none) ∧
      (peekPriority (fresh.enqueue "a" 5) = Except.error QueueError.emptyQueue
        ↔ ∀ o ∈ (fresh.enqueue "a" 5).heap, o = none) ∧
      ((fresh.enqueue "a" 5).heap.length ≠ 0 →
        ∃ r, (getDequeuedRoot (fresh.enqueue "a" 5).heap).1 = some r ∧
          (fresh.enqueue "a" 5).heap.getD (getDequeuedRoot (fresh.enqueue "a" 5).heap).2 none
            = some r) ∧
      dequeue (fresh.enqueue "a" 5) ≠ Except.error QueueError.nullDereference ∧
      peek (fresh.enqueue "a" 5) ≠ Except.error QueueError.nullDereference ∧
      peekPriority (fresh.enqueue "a" 5) ≠ Except.error QueueError.nullDereference :=
  ⟨Reachable.enqueue "a" 5 Reachable.fresh,
    emptyQueue_iff_no_slot_occupied _ (Reachable.enqueue "a" 5 Reachable.fresh)⟩

end BinomialHeapPriorityQueue

namespace BinomialHeapPriorityQueue

open BinomialHeapNode

theorem power_eq_pow (base : Int) (exponent : Nat) : power base exponent = base ^ exponent := by
  unfold power
  rw [Int.toNat_ofNat]
  refine foldl_range_invariant (fun result _ => result * base) (fun k result => result = base ^ k)
    1 exponent ?_ ?_
  · simp
  · intro i s _ ih
    simp only [] at ih ⊢
    rw [ih, pow_succ]

theorem holding_reachable {n : Nat} {q : BinomialHeapPriorityQueue} (h : Holding n q) :
    Reachable q ∧ (entries q).length = n := by
  induction h with
  | fresh => exact ⟨Reachable.fresh, rfl⟩
  | enqueue value priority _ ih =>
    refine ⟨Reachable.enqueue value priority ih.1, ?_⟩
    rw [(entries_enqueue_perm _ value priority).length_eq, List.length_cons, ih.2]
  | dequeue _ hd ih =>
    refine ⟨Reachable.dequeue ih.1 hd, ?_⟩
    obtain ⟨r, h1, h2⟩ := root_of_dequeue hd
    rw [dequeue_of_root h1 h2] at hd
    simp only [Except.ok.injEq, Prod.mk.injEq] at hd
    obtain ⟨_, rfl⟩ := hd
    have := (dequeue_post h2).1.length_eq
    simp only [List.length_cons, entries] at this ih ⊢
    omega
  | clear _ ih => exact ⟨Reachable.clear ih.1, rfl⟩

theorem isEmpty_iff_entries_nil {q : BinomialHeapPriorityQueue} (hq : Inv q) :
    isEmpty q = true ↔ entries q = [] := by
  simp only [isEmpty, decide_eq_true_eq]
  constructor
  · intro hl
    have : q.heap = [] := List.length_eq_zero.1 hl
    simp [entries, this, forestEntries]
  · intro he
    by_contra hl
    exact entries_ne_nil_of_heap hq hl he

theorem reachable_runCalls (cs : List Call) :
    ∀ q : BinomialHeapPriorityQueue, Reachable q → Reachable (runCalls cs q).2 := by
  induction cs with
  | nil => intro q hq; exact hq
  | cons c cs ih =>
    intro q hq
    refine ih _ ?_
    cases c with
    | enqueue value priority => exact Reachable.enqueue value priority hq
    | dequeue =>
      unfold call
      rcases hd : q.dequeue with e | ⟨value, q'⟩
      · exact hq
      · exact Reachable.dequeue hq hd
    | peek => unfold call; cases q.peek <;> exact hq
    | peekPriority => unfold call; cases q.peekPriority <;> exact hq
    | isEmpty => exact hq
    | size => exact hq
    | clear => exact Reachable.clear hq

theorem holding_runCalls (cs : List Call) :
    ∀ (n : Nat) (q : BinomialHeapPriorityQueue), Holding n q →
      ∃ k, Holding k (runCalls cs q).2 := by
  induction cs with
  | nil => intro n q hq; exact ⟨n, hq⟩
  | cons c cs ih =>
    intro n q hq
    have step : ∃ k, Holding k (q.call c).2 := by
      cases c with
      | enqueue value priority => exact ⟨n + 1, Holding.enqueue value priority hq⟩
      | dequeue =>
        unfold call
        rcases hd : q.dequeue with e | ⟨value, q'⟩
        · exact ⟨n, hq⟩
        · exact ⟨n - 1, Holding.dequeue hq hd⟩
      | peek => unfold call; cases q.peek <;> exact ⟨n, hq⟩
      | peekPriority => unfold call; cases q.peekPriority <;> exact ⟨n, hq⟩
      | isEmpty => exact ⟨n, hq⟩
      | size => exact ⟨n, hq⟩
      | clear => exact ⟨0, Holding.clear hq⟩
    obtain ⟨k, hk⟩ := step
    exact ih k _ hk

set_option maxRecDepth 100000 in
theorem overflowState_entries : (entries overflowState).length = 33 := by rfl

theorem holding_overflowState : Holding 33 overflowState := by
  obtain ⟨k, hk⟩ := holding_runCalls overflowCalls 0 fresh Holding.fresh
  have h := (holding_reachable hk).2
  have e : (entries (runCalls overflowCalls fresh).2).length = 33 := overflowState_entries
  rw [e] at h
  rw [← h] at hk
  exact hk

set_option maxRecDepth 100000 in
/-- C7: in every reachable state, with `n` the number of enqueues minus returning
dequeues since construction or the last `clear`, the queue holds exactly `n` entries and
`isEmpty` returns true if and only if `n` is zero; but this does not coincide with
`size() == 0`.  The 97 calls of `overflowCalls` on a fresh queue reach a state that
holds 33 entries in one tree at slot 32, where `isEmpty` returns false and `size`
adds `power(2, 32)`, which is 4294967296 in the integers and 0 in an `int` of 32
bits: `size` returns 0 on a queue that is not empty. -/
theorem size_zero_on_nonempty_queue :
    (∀ (n : Nat) (q : BinomialHeapPriorityQueue), Holding n q →
        (entries q).length = n ∧ (isEmpty q = true ↔ n = 0)) ∧
      overflowCalls.length = 97 ∧
      Holding 33 overflowState ∧ Reachable overflowState ∧
      (entries overflowState).length = 33 ∧
      overflowState.heap.length = 33 ∧
      (∀ j, j < 32 → (overflowState.heap.getD j none).isSome = false) ∧
      (overflowState.heap.getD 32 none).isSome = true ∧
      isEmpty overflowState = false ∧
      power32 2 32 = 0 ∧
      size32 overflowState = 0 ∧
      size overflowState = 4294967296 := by
  refine ⟨fun n q h => ?_, by rfl, holding_overflowState,
    (holding_reachable holding_overflowState).1, by rfl, by rfl, ?_, by rfl, by rfl, by rfl,
    by rfl, by rfl⟩
  · obtain ⟨hr, hn⟩ := holding_reachable h
    have hinv := inv_of_reachable hr
    refine ⟨hn, ?_⟩
    rw [isEmpty_iff_entries_nil hinv, ← hn]
    exact List.length_eq_zero.symm
  · have hall : (List.range 32).all
        (fun j => !(overflowState.heap.getD j none).isSome) = true := by rfl
    intro j hj
    have := List.all_eq_true.1 hall j (List.mem_range.2 hj)
    simpa using this

/-- C8: for every reachable state, after `clear` the queue is the fresh queue, so
`size` returns 0, `isEmpty` returns true and every later sequence of calls gives the
replies and states it gives on a fresh queue; `clear` on a queue that holds no entry
leaves the state as it was. -/
theorem clear_resets (q : BinomialHeapPriorityQueue) (hq : Reachable q) :
    size (clear q) = 0 ∧ isEmpty (clear q) = true ∧
      call q Call.clear = (Reply.done, fresh) ∧
      (entries q = [] → clear q = q) ∧
      (isEmpty q = true → clear q = q) ∧
      ∀ calls : List Call, runCalls calls (clear q) = runCalls calls fresh := by
  have hinv := inv_of_reachable hq
  refine ⟨rfl, rfl, rfl, fun he => ?_, fun he => ?_, fun _ => rfl⟩
  · rw [heap_nil_of_entries_nil hinv he]; rfl
  · rw [heap_nil_of_entries_nil hinv ((isEmpty_iff_entries_nil hinv).1 he)]; rfl

theorem clear_resets_witness :
    Reachable (fresh.enqueue "a" 5) ∧
      size (clear (fresh.enqueue "a" 5)) = 0 ∧ isEmpty (clear (fresh.enqueue "a" 5)) = true ∧
      call (fresh.enqueue "a" 5) Call.clear = (Reply.done, fresh) ∧
      (entries (fresh.enqueue "a" 5) = [] → clear (fresh.enqueue "a" 5) = fresh.enqueue "a" 5) ∧
      (isEmpty (fresh.enqueue "a" 5) = true → clear (fresh.enqueue "a" 5) = fresh.enqueue "a" 5) ∧
      ∀ calls : List Call, runCalls calls (clear (fresh.enqueue "a" 5)) = runCalls calls fresh :=
  ⟨Reachable.enqueue "a" 5 Reachable.fresh,
    clear_resets _ (Reachable.enqueue "a" 5 Reachable.fresh)⟩

end BinomialHeapPriorityQueue

/-! ## The linked-list queue -/

namespace LinkedPriorityQueue

theorem enqueueLoop_spec (x : ListNode) (l : List ListNode) (hl : l ≠ []) :
    (enqueueLoop x l).Perm (x :: l) ∧
      ((l.map ListNode.entry).Sorted (fun a b => PQEntry.le a b = true) →
        ((enqueueLoop x l).map ListNode.entry).Sorted (fun a b => PQEntry.le a b = true)) := by
  induction l with
  | nil => exact absurd rfl hl
  | cons node rest ih =>
    unfold enqueueLoop
    by_cases hlt : ListNode.lt x node = true
    · rw [if_pos hlt]
      refine ⟨List.Perm.refl _, fun hs => ?_⟩
      have hxn : PQEntry.le x.entry node.entry = true := PQEntry.le_of_lt_entry hlt
      simp only [List.map_cons, List.sorted_cons] at hs ⊢
      refine ⟨?_, hs⟩
      intro b hb
      rcases List.mem_cons.1 hb with rfl | hb
      · exact hxn
      · exact PQEntry.le_trans_entry hxn (hs.1 b hb)
    · rw [if_neg hlt]
      have hnx : PQEntry.le node.entry x.entry = true := by
        rw [PQEntry.le_iff_not_lt]
        simpa [ListNode.lt] using hlt
      have hge : ListNode.ge x node = true := by
        simpa [ListNode.ge] using hlt
      cases rest with
      | nil =>
        simp only [hge, List.isEmpty_nil, Bool.and_self, if_true]
        refine ⟨List.Perm.swap _ _ _, fun _ => ?_⟩
        simp only [List.map_cons, List.map_nil, List.sorted_cons, List.mem_singleton,
          forall_eq, List.not_mem_nil, false_implies, implies_true, List.sorted_nil, and_true]
        exact hnx
      | cons r rs =>
        simp only [hge, List.isEmpty_cons, Bool.and_false, Bool.false_eq_true, if_false]
        obtain ⟨ihp, ihs⟩ := ih (List.cons_ne_nil r rs)
        refine ⟨(List.Perm.cons node ihp).trans (List.Perm.swap _ _ _), fun hs => ?_⟩
        simp only [List.map_cons, List.sorted_cons] at hs
        rw [List.map_cons, List.sorted_cons]
        refine ⟨?_, ihs (by simpa [List.sorted_cons] using hs.2)⟩
        intro b hb
        obtain ⟨n, hn, rfl⟩ := List.mem_map.1 hb
        rcases List.mem_cons.1 (ihp.subset hn) with rfl | hn
        · exact hnx
        · exact hs.1 _ (List.mem_map.2 ⟨n, hn, rfl⟩)

theorem enqueue_spec (q : LinkedPriorityQueue) (value : String) (priority : Int) :
    (entries (q.enqueue value priority)).Perm (⟨value, priority⟩ :: entries q) ∧
      ((entries q).Sorted (fun a b => PQEntry.le a b = true) →
        (entries (q.enqueue value priority)).Sorted (fun a b => PQEntry.le a b = true)) := by
  cases q with
  | mk nodes =>
    cases nodes with
    | nil =>
      simp [enqueue, enqueueLoop, entries, ListNode.entry]
    | cons n ns =>
      obtain ⟨hp, hs⟩ := enqueueLoop_spec ⟨value, priority⟩ (n :: ns) (List.cons_ne_nil n ns)
      have hne : enqueueLoop ⟨value, priority⟩ (n :: ns) ≠ [] := by
        intro h; rw [h] at hp; exact List.cons_ne_nil _ _ hp.nil_eq.symm
      have he : (enqueue ⟨n :: ns⟩ value priority).nodes
          = enqueueLoop ⟨value, priority⟩ (n :: ns) := by
        simp only [enqueue]
        cases hq : enqueueLoop ⟨value, priority⟩ (n :: ns) with
        | nil => exact absurd hq hne
        | cons a as => rfl
      simp only [entries, he]
      exact ⟨hp.map ListNode.entry, hs⟩

theorem enqueueAll_spec (l : List (String × Int)) :
    ∀ q : LinkedPriorityQueue, (entries q).Sorted (fun a b => PQEntry.le a b = true) →
      (entries (enqueueAll q l)).Perm (entries q ++ l.map toEntry) ∧
        (entries (enqueueAll q l)).Sorted (fun a b => PQEntry.le a b = true) := by
  induction l with
  | nil => intro q hs; exact ⟨by simp [enqueueAll], hs⟩
  | cons p l ih =>
    intro q hs
    obtain ⟨hp, hs'⟩ := enqueue_spec q p.1 p.2
    obtain ⟨ip, is'⟩ := ih (q.enqueue p.1 p.2) (hs' hs)
    refine ⟨ip.trans ((List.Perm.append_right _ hp).trans ?_), is'⟩
    simp only [List.map_cons, toEntry, List.cons_append]
    exact List.perm_middle.symm

theorem dequeueN_all (nodes : List ListNode) :
    dequeueN nodes.length ⟨nodes⟩
      = Except.ok ((nodes.map ListNode.entry).map PQEntry.value, fresh) := by
  induction nodes with
  | nil => rfl
  | cons n ns ih =>
    simp only [List.length_cons, dequeueN, dequeue, ih, List.map_cons, ListNode.entry]

theorem linked_dequeueN_enqueueAll (l : List (String × Int)) :
    dequeueN l.length (enqueueAll fresh l)
      = Except.ok ((sortedEntries (l.map toEntry)).map PQEntry.value, fresh) := by
  obtain ⟨hp, hs⟩ := enqueueAll_spec l fresh (by simp [entries, fresh])
  have hes : entries (enqueueAll fresh l) = sortedEntries (l.map toEntry) := by
    refine BinomialHeapPriorityQueue.le_sorted_unique ?_ hs
      (BinomialHeapPriorityQueue.sortedEntries_sorted _)
    refine hp.trans ?_
    simpa [entries, fresh] using
      (BinomialHeapPriorityQueue.sortedEntries_perm (l.map toEntry)).symm
  have hlen : l.length = (enqueueAll fresh l).nodes.length := by
    have := hp.length_eq
    simpa [entries, fresh] using this.symm
  rw [hlen, dequeueN_all]
  rw [show (enqueueAll fresh l).nodes.map ListNode.entry = entries (enqueueAll fresh l) from rfl,
    hes]

end LinkedPriorityQueue

/-- C9: for every list of (value, priority) pairs, enqueuing it in order into a fresh
binomial-heap queue and into a fresh linked-list queue and then dequeuing once per
pair from each returns every time and gives the same sequence of values. -/
theorem binomial_matches_linked (l : List (String × Int)) :
    ∃ values q1 q2,
      BinomialHeapPriorityQueue.dequeueN l.length
          (BinomialHeapPriorityQueue.enqueueAll BinomialHeapPriorityQueue.fresh l)
        = Except.ok (values, q1) ∧
      LinkedPriorityQueue.dequeueN l.length
          (LinkedPriorityQueue.enqueueAll LinkedPriorityQueue.fresh l)
        = Except.ok (values, q2) :=
  ⟨_, _, _, BinomialHeapPriorityQueue.dequeueN_enqueueAll l,
    LinkedPriorityQueue.linked_dequeueN_enqueueAll l⟩

/-! ## The array-heap queue -/

namespace HeapPriorityQueue

/-- C10: after `enqueue("x", 1)` and `enqueue("y", -1)` on a fresh queue the entry
("y", -1) has been swapped into cell 0 and cell 1 is blank, so `peek` returns the
empty string, `peekPriority` returns 0 and `dequeue` returns the empty string, while
the most urgent entry enqueued is ("y", -1). -/
theorem negative_priority_passes_the_root :
    enqueueAll fresh [("x", 1), ("y", -1)]
        = Except.ok ⟨[⟨"y", -1⟩, PQEntry.blank, ⟨"x", 1⟩, PQEntry.blank, PQEntry.blank,
            PQEntry.blank, PQEntry.blank, PQEntry.blank, PQEntry.blank, PQEntry.blank], 10, 2⟩ ∧
      peek ⟨[⟨"y", -1⟩, PQEntry.blank, ⟨"x", 1⟩, PQEntry.blank, PQEntry.blank,
            PQEntry.blank, PQEntry.blank, PQEntry.blank, PQEntry.blank, PQEntry.blank], 10, 2⟩
        = Except.ok "" ∧
      peekPriority ⟨[⟨"y", -1⟩, PQEntry.blank, ⟨"x", 1⟩, PQEntry.blank, PQEntry.blank,
            PQEntry.blank, PQEntry.blank, PQEntry.blank, PQEntry.blank, PQEntry.blank], 10, 2⟩
        = Except.ok 0 ∧
      dequeue ⟨[⟨"y", -1⟩, PQEntry.blank, ⟨"x", 1⟩, PQEntry.blank, PQEntry.blank,
            PQEntry.blank, PQEntry.blank, PQEntry.blank, PQEntry.blank, PQEntry.blank], 10, 2⟩
        = Except.ok ("", ⟨[⟨"y", -1⟩, ⟨"x", 1⟩, PQEntry.blank, PQEntry.blank, PQEntry.blank,
            PQEntry.blank, PQEntry.blank, PQEntry.blank, PQEntry.blank, PQEntry.blank], 10, 1⟩) ∧
      sortedEntries [⟨"x", 1⟩, ⟨"y", -1⟩] = [⟨"y", -1⟩, ⟨"x", 1⟩] :=
  ⟨by rfl, by rfl, by rfl, by rfl, by decide⟩

end HeapPriorityQueue

/-! ## The structure of `mergeTrees` and `merge` -/

namespace BinomialHeapPriorityQueue

open BinomialHeapNode

theorem mergeStep_eq (h1 h2 : List (Option BinomialHeapNode))
    (m : List (Option BinomialHeapNode)) (c : Option BinomialHeapNode) (i : Nat) :
    mergeStep h1 h2 (m, c) i =
      match h1.getD i none, h2.getD i none, c with
      | none, none, none => (m ++ [none], none)
      | none, none, some z => (m ++ [some z], none)
      | none, some y, none => (m ++ [some y], none)
      | none, some y, some z => (m ++ [none], some (mergeTrees y z))
      | some x, none, none => (m ++ [some x], none)
      | some x, none, some z => (m ++ [none], some (mergeTrees x z))
      | some x, some y, none => (m ++ [none], some (mergeTrees x y))
      | some x, some y, some z => (m ++ [some z], some (mergeTrees x y)) := by
  unfold mergeStep
  rw [possibleTrees_eq]
  rcases h1.getD i none with _ | x <;> rcases h2.getD i none with _ | y <;>
    rcases c with _ | z <;> rfl

theorem mergeLoop_succ (h1 h2 : List (Option BinomialHeapNode)) (i : Nat) :
    mergeLoop h1 h2 (i + 1) = mergeStep h1 h2 (mergeLoop h1 h2 i) i := by
  unfold mergeLoop
  rw [List.range_succ, List.foldl_append]
  rfl

theorem mergeLoop_take (h1 h2 : List (Option BinomialHeapNode)) (n : Nat) :
    ∀ i, i ≤ n → (mergeLoop h1 h2 n).1.take i = (mergeLoop h1 h2 i).1 := by
  induction n with
  | zero =>
    intro i hi
    have : i = 0 := Nat.le_zero.1 hi
    subst this
    rfl
  | succ k ih =>
    intro i hi
    rcases Nat.lt_or_ge i (k + 1) with hlt | hge
    · have hik : i ≤ k := Nat.lt_succ_iff.1 hlt
      have hstep : (mergeLoop h1 h2 (k + 1)).1.take k = (mergeLoop h1 h2 k).1 := by
        rw [mergeLoop_succ]
        have hl := mergeLoop_length h1 h2 k
        unfold mergeStep
        split <;> simp [List.take_append_eq_append_take, hl]
      rw [← ih i hik, ← hstep, List.take_take, Nat.min_eq_left hik]
    · have : i = k + 1 := Nat.le_antisymm hi hge
      subst this
      exact List.take_of_length_le (by rw [mergeLoop_length])

theorem mergeLoop_getD (h1 h2 : List (Option BinomialHeapNode)) (n i : Nat) (hi : i < n) :
    (mergeLoop h1 h2 n).1.getD i none = (mergeLoop h1 h2 (i + 1)).1.getD i none := by
  rw [← mergeLoop_take h1 h2 n (i + 1) hi]
  simp only [List.getD_eq_getElem?_getD]
  rw [List.getElem?_take_of_lt (Nat.lt_succ_self i)]

theorem merge_getD (h1 h2 : List (Option BinomialHeapNode)) (i : Nat)
    (hi : i < (if h1.length > h2.length then h1.length else h2.length)) :
    (merge h1 h2).getD i none = (mergeLoop h1 h2 (i + 1)).1.getD i none := by
  rw [← mergeLoop_getD h1 h2 _ i hi]
  have hl := mergeLoop_length h1 h2 (if h1.length > h2.length then h1.length else h2.length)
  unfold merge
  simp only []
  cases (mergeLoop h1 h2 (if h1.length > h2.length then h1.length else h2.length)).2 with
  | none => rfl
  | some c =>
    simp only [List.getD_eq_getElem?_getD]
    rw [List.getElem?_append_left (by rw [hl]; exact hi)]

theorem getD_append_length (m : List (Option BinomialHeapNode)) (o : Option BinomialHeapNode) :
    (m ++ [o]).getD m.length none = o := by
  simp [List.getD_eq_getElem?_getD]

end BinomialHeapPriorityQueue

namespace BinomialHeapPriorityQueue

open BinomialHeapNode

theorem getD_append_at (m : List (Option BinomialHeapNode)) (o : Option BinomialHeapNode)
    (i : Nat) (h : m.length = i) : (m ++ [o]).getD i none = o := by
  subst h; exact getD_append_length m o

theorem mergeBound_eq_max (a b : Nat) : (if a > b then a else b) = max a b := by
  split <;> omega

theorem carryInto_succ (h1 h2 : List (Option BinomialHeapNode)) (i : Nat) :
    mergeLoop h1 h2 (i + 1)
      = mergeStep h1 h2 ((mergeLoop h1 h2 i).1, carryInto h1 h2 i) i := by
  rw [mergeLoop_succ]; rfl

/-- C18: for every pair of slot sequences the carry into order 0 is `NULL`; at every
order `i` below the longer length, with `t` the number of trees present among
`heap1[i]`, `heap2[i]` and the incoming carry, slot `i` of the result is occupied exactly
when `t` is 1 or 3 and a carry goes out exactly when `t` is at least 2; a carry left
after the last order is appended as one more slot, and without one the result has
exactly as many slots as the longer input. -/
theorem merge_ripple_carry (h1 h2 : List (Option BinomialHeapNode)) :
    carryInto h1 h2 0 = none ∧
      (∀ i, i < max h1.length h2.length →
        ((((merge h1 h2).getD i none).isSome = true ↔
            (treesPresent h1 h2 i = 1 ∨ treesPresent h1 h2 i = 3)) ∧
          ((carryInto h1 h2 (i + 1)).isSome = true ↔ 2 ≤ treesPresent h1 h2 i))) ∧
      (∀ c, carryInto h1 h2 (max h1.length h2.length) = some c →
        (merge h1 h2).length = max h1.length h2.length + 1 ∧
          (merge h1 h2).getD (max h1.length h2.length) none = some c) ∧
      (carryInto h1 h2 (max h1.length h2.length) = none →
        (merge h1 h2).length = max h1.length h2.length) := by
  have hn := mergeLoop_length h1 h2 (max h1.length h2.length)
  refine ⟨rfl, fun i hi => ⟨?_, ?_⟩, ?_, ?_⟩
  · have hl := mergeLoop_length h1 h2 i
    rw [merge_getD h1 h2 i (by rw [mergeBound_eq_max]; exact hi), carryInto_succ, mergeStep_eq]
    unfold treesPresent
    rcases h1.getD i none with _ | x <;> rcases h2.getD i none with _ | y <;>
      rcases carryInto h1 h2 i with _ | z <;>
      simp only [getD_append_at _ _ i hl] <;> simp [present]
  · unfold carryInto
    rw [carryInto_succ, mergeStep_eq]
    unfold treesPresent
    rcases h1.getD i none with _ | x <;> rcases h2.getD i none with _ | y <;>
      rcases carryInto h1 h2 i with _ | z <;> simp [present]
  · intro c hc
    unfold carryInto at hc
    unfold merge
    simp only [mergeBound_eq_max, hc, List.length_append, hn, List.length_singleton, true_and]
    exact getD_append_at _ _ _ hn
  · intro hc
    unfold carryInto at hc
    unfold merge
    simp only [mergeBound_eq_max, hc, hn]

theorem merge_ripple_carry_witness :
    treesPresent sampleLeft sampleRight 0 = 2 ∧ treesPresent sampleLeft sampleRight 1 = 2 ∧
      (merge sampleLeft sampleRight).length = 3 ∧
      (merge ([] : List (Option BinomialHeapNode)) []).length = 0 ∧
      carryInto sampleLeft sampleRight 0 = none ∧
      (∀ i, i < max sampleLeft.length sampleRight.length →
        ((((merge sampleLeft sampleRight).getD i none).isSome = true ↔
            (treesPresent sampleLeft sampleRight i = 1 ∨
              treesPresent sampleLeft sampleRight i = 3)) ∧
          ((carryInto sampleLeft sampleRight (i + 1)).isSome = true ↔
            2 ≤ treesPresent sampleLeft sampleRight i))) ∧
      (∀ c, carryInto sampleLeft sampleRight (max sampleLeft.length sampleRight.length) = some c →
        (merge sampleLeft sampleRight).length = max sampleLeft.length sampleRight.length + 1 ∧
          (merge sampleLeft sampleRight).getD (max sampleLeft.length sampleRight.length) none
            = some c) ∧
      (carryInto sampleLeft sampleRight (max sampleLeft.length sampleRight.length) = none →
        (merge sampleLeft sampleRight).length = max sampleLeft.length sampleRight.length) :=
  ⟨by decide, by decide, by rfl, (merge_ripple_carry [] []).2.2.2 rfl,
    merge_ripple_carry sampleLeft sampleRight⟩

/-- C19: when `heap1[i]`, `heap2[i]` and an incoming carry are all present at order
`i`, slot `i` of the result is the incoming carry itself and the outgoing carry is
`mergeTrees(heap1[i], heap2[i])`. -/
theorem merge_three_trees (h1 h2 : List (Option BinomialHeapNode)) (i : Nat)
    (p a c : BinomialHeapNode) (hp : h1.getD i none = some p) (ha : h2.getD i none = some a)
    (hc : carryInto h1 h2 i = some c) :
    (merge h1 h2).getD i none = some c ∧ carryInto h1 h2 (i + 1) = some (mergeTrees p a) := by
  have hl := mergeLoop_length h1 h2 i
  have hi : i < (if h1.length > h2.length then h1.length else h2.length) := by
    have := getD_some_lt hp
    split <;> omega
  constructor
  · rw [merge_getD h1 h2 i hi, carryInto_succ, mergeStep_eq, hp, ha, hc]
    exact getD_append_at _ _ i hl
  · unfold carryInto
    rw [carryInto_succ, mergeStep_eq, hp, ha, hc]

theorem merge_three_trees_witness :
    [some (BinomialHeapNode.mk ⟨"a", 1⟩ []), some (BinomialHeapNode.mk ⟨"b", 2⟩ [])].getD 1 none
        = some (BinomialHeapNode.mk ⟨"b", 2⟩ []) ∧
      [some (BinomialHeapNode.mk ⟨"c", 3⟩ []), some (BinomialHeapNode.mk ⟨"d", 4⟩ [])].getD 1 none
        = some (BinomialHeapNode.mk ⟨"d", 4⟩ []) ∧
      carryInto
          [some (BinomialHeapNode.mk ⟨"a", 1⟩ []), some (BinomialHeapNode.mk ⟨"b", 2⟩ [])]
          [some (BinomialHeapNode.mk ⟨"c", 3⟩ []), some (BinomialHeapNode.mk ⟨"d", 4⟩ [])] 1
        = some (BinomialHeapNode.mk ⟨"a", 1⟩ [BinomialHeapNode.mk ⟨"c", 3⟩ []]) ∧
      (merge
          [some (BinomialHeapNode.mk ⟨"a", 1⟩ []), some (BinomialHeapNode.mk ⟨"b", 2⟩ [])]
          [some (BinomialHeapNode.mk ⟨"c", 3⟩ []), some (BinomialHeapNode.mk ⟨"d", 4⟩ [])]).getD
          1 none
        = some (BinomialHeapNode.mk ⟨"a", 1⟩ [BinomialHeapNode.mk ⟨"c", 3⟩ []]) ∧
      carryInto
          [some (BinomialHeapNode.mk ⟨"a", 1⟩ []), some (BinomialHeapNode.mk ⟨"b", 2⟩ [])]
          [some (BinomialHeapNode.mk ⟨"c", 3⟩ []), some (BinomialHeapNode.mk ⟨"d", 4⟩ [])] 2
        = some (mergeTrees (BinomialHeapNode.mk ⟨"b", 2⟩ []) (BinomialHeapNode.mk ⟨"d", 4⟩ [])) :=
  ⟨rfl, rfl, rfl,
    merge_three_trees
      [some (BinomialHeapNode.mk ⟨"a", 1⟩ []), some (BinomialHeapNode.mk ⟨"b", 2⟩ [])]
      [some (BinomialHeapNode.mk ⟨"c", 3⟩ []), some (BinomialHeapNode.mk ⟨"d", 4⟩ [])] 1
      (BinomialHeapNode.mk ⟨"b", 2⟩ []) (BinomialHeapNode.mk ⟨"d", 4⟩ [])
      (BinomialHeapNode.mk ⟨"a", 1⟩ [BinomialHeapNode.mk ⟨"c", 3⟩ []]) rfl rfl rfl⟩

end BinomialHeapPriorityQueue

/-! ## Binomial trees -/

namespace BinomialHeapNode

mutual
theorem isBinomialTree_count :
    ∀ (t : BinomialHeapNode) (k : Nat), isBinomialTree t k = true → t.entries.length = 2 ^ k
  | mk e cs, k, h => by
    simp only [isBinomialTree, Bool.and_eq_true, decide_eq_true_eq] at h
    have hc := isBinomialChildren_count cs 0 h.2
    simp only [entries, List.length_cons]
    rw [h.1] at hc
    simp at hc
    omega
theorem isBinomialChildren_count :
    ∀ (cs : List BinomialHeapNode) (j : Nat), isBinomialChildren cs j = true →
      (entriesList cs).length + 2 ^ j = 2 ^ (j + cs.length)
  | [], j, _ => by simp [entriesList]
  | c :: cs, j, h => by
    simp only [isBinomialChildren, Bool.and_eq_true] at h
    have h1 := isBinomialTree_count c j h.1
    have h2 := isBinomialChildren_count cs (j + 1) h.2
    simp only [entriesList, List.length_append, List.length_cons]
    have e : j + (cs.length + 1) = j + 1 + cs.length := by omega
    rw [e, ← h2, h1, pow_succ]
    omega
end

end BinomialHeapNode

namespace BinomialHeapNode

mutual
theorem heapOrdered_subtrees :
    ∀ (t : BinomialHeapNode), heapOrdered t = true →
      ∀ n ∈ subtrees t, ∀ x ∈ n.entries, PQEntry.le n.entry x = true
  | mk e cs, h, n, hn, x, hx => by
    simp only [subtrees, List.mem_cons] at hn
    rcases hn with rfl | hn
    · exact root_le_of_heapOrdered h x hx
    · exact heapOrderedList_subtrees cs ((heapOrdered_iff (mk e cs)).1 h).2 n hn x hx
theorem heapOrderedList_subtrees :
    ∀ (cs : List BinomialHeapNode), heapOrderedList cs = true →
      ∀ n ∈ subtreesList cs, ∀ x ∈ n.entries, PQEntry.le n.entry x = true
  | [], _, n, hn, _, _ => by simp [subtreesList] at hn
  | c :: cs, h, n, hn, x, hx => by
    simp only [heapOrderedList, Bool.and_eq_true] at h
    simp only [subtreesList, List.mem_append] at hn
    rcases hn with hn | hn
    · exact heapOrdered_subtrees c h.1 n hn x hx
    · exact heapOrderedList_subtrees cs h.2 n hn x hx
end

theorem isBinomialChildren_append (as bs : List BinomialHeapNode) :
    ∀ j, isBinomialChildren (as ++ bs) j
      = (isBinomialChildren as j && isBinomialChildren bs (j + as.length)) := by
  induction as with
  | nil => intro j; simp [isBinomialChildren]
  | cons a as ih =>
    intro j
    show (isBinomialTree a j && isBinomialChildren (as ++ bs) (j + 1)) = _
    rw [ih, show j + 1 + as.length = j + (as.length + 1) by omega]
    simp only [isBinomialChildren, List.length_cons, Bool.and_assoc]

theorem children_mk (e : PQEntry) (cs : List BinomialHeapNode) : (mk e cs).children = cs := rfl

theorem entry_mk (e : PQEntry) (cs : List BinomialHeapNode) : (mk e cs).entry = e := rfl

theorem isBinomialTree_iff (t : BinomialHeapNode) (k : Nat) :
    isBinomialTree t k = true ↔ t.children.length = k ∧ isBinomialChildren t.children 0 = true := by
  cases t; simp [isBinomialTree, children]

end BinomialHeapNode

namespace BinomialHeapPriorityQueue

open BinomialHeapNode

theorem mergeTrees_binomial {t1 t2 : BinomialHeapNode} {k : Nat}
    (h1 : t1.isBinomialTree k = true) (h2 : t2.isBinomialTree k = true) :
    (mergeTrees t1 t2).isBinomialTree (k + 1) = true := by
  obtain ⟨l1, c1⟩ := (isBinomialTree_iff t1 k).1 h1
  obtain ⟨l2, c2⟩ := (isBinomialTree_iff t2 k).1 h2
  unfold mergeTrees
  split
  · rw [isBinomialTree_iff]
    simp only [children_mk, List.length_append, List.length_singleton, l2,
      isBinomialChildren_append, isBinomialChildren, c2, Nat.zero_add, h1, Bool.and_self, and_self]
  · rw [isBinomialTree_iff]
    simp only [children_mk, List.length_append, List.length_singleton, l1,
      isBinomialChildren_append, isBinomialChildren, c1, Nat.zero_add, h2, Bool.and_self, and_self]

theorem forestWellFormedFrom_iff (h : List (Option BinomialHeapNode)) :
    ∀ o, forestWellFormedFrom h o = true ↔
      ∀ i t, h.getD i none = some t → t.isBinomialTree (o + i) = true := by
  induction h with
  | nil => intro o; simp [forestWellFormedFrom]
  | cons x h ih =>
    intro o
    cases x with
    | none =>
      simp only [forestWellFormedFrom, ih]
      constructor
      · intro hh i t ht
        cases i with
        | zero => simp at ht
        | succ j =>
          have := hh j t (by simpa using ht)
          rwa [show o + 1 + j = o + (j + 1) by omega] at this
      · intro hh i t ht
        have := hh (i + 1) t (by simpa using ht)
        rwa [show o + (i + 1) = o + 1 + i by omega] at this
    | some u =>
      simp only [forestWellFormedFrom, Bool.and_eq_true, ih]
      constructor
      · rintro ⟨hu, hh⟩ i t ht
        cases i with
        | zero =>
          simp only [List.getD_cons_zero, Option.some.injEq] at ht
          subst ht; exact hu
        | succ j =>
          have := hh j t (by simpa using ht)
          rwa [show o + 1 + j = o + (j + 1) by omega] at this
      · intro hh
        refine ⟨hh 0 u (by simp), fun i t ht => ?_⟩
        have := hh (i + 1) t (by simpa using ht)
        rwa [show o + (i + 1) = o + 1 + i by omega] at this

theorem forestWellFormed_iff (h : List (Option BinomialHeapNode)) :
    forestWellFormed h = true ↔ ∀ i t, h.getD i none = some t → t.isBinomialTree i = true := by
  unfold forestWellFormed
  rw [forestWellFormedFrom_iff]
  simp

theorem getD_append_singleton {m : List (Option BinomialHeapNode)}
    {x : Option BinomialHeapNode} {j : Nat} {t : BinomialHeapNode}
    (h : (m ++ [x]).getD j none = some t) :
    m.getD j none = some t ∨ (j = m.length ∧ x = some t) := by
  rw [List.getD_eq_getElem?_getD] at h
  rcases Nat.lt_trichotomy j m.length with hlt | heq | hgt
  · left
    rw [List.getElem?_append_left hlt] at h
    rw [List.getD_eq_getElem?_getD]; exact h
  · right
    subst heq
    have := getD_append_length m x
    rw [List.getD_eq_getElem?_getD] at this
    rw [this] at h
    exact ⟨rfl, h⟩
  · rw [List.getElem?_eq_none (by simp; omega)] at h
    cases h

theorem mergeLoop_wellFormed {h1 h2 : List (Option BinomialHeapNode)}
    (w1 : forestWellFormed h1 = true) (w2 : forestWellFormed h2 = true) (n : Nat) :
    (∀ j t, (mergeLoop h1 h2 n).1.getD j none = some t → t.isBinomialTree j = true) ∧
      (∀ c, (mergeLoop h1 h2 n).2 = some c → c.isBinomialTree n = true) := by
  rw [forestWellFormed_iff] at w1 w2
  induction n with
  | zero =>
    refine ⟨fun j t ht => ?_, fun c hc => ?_⟩
    · simp [mergeLoop] at ht
    · simp [mergeLoop] at hc
  | succ i ih =>
    obtain ⟨im, ic⟩ := ih
    have hl := mergeLoop_length h1 h2 i
    have ha := w1 i
    have hb := w2 i
    rw [carryInto_succ, mergeStep_eq]
    unfold carryInto
    rcases hA : h1.getD i none with _ | x <;> rcases hB : h2.getD i none with _ | y <;>
      rcases hC : (mergeLoop h1 h2 i).2 with _ | z <;>
      rw [hA] at ha <;> rw [hB] at hb <;> rw [hC] at ic <;>
      refine ⟨fun j t ht => ?_, fun c hc => ?_⟩
    all_goals first
      | (rcases getD_append_singleton ht with h | ⟨hj, hx⟩
         · exact im j t h
         · rw [hl] at hj
           subst hj
           cases hx <;> first
             | exact ha _ rfl
             | exact hb _ rfl
             | exact ic _ rfl)
      | (cases hc <;> first
          | exact mergeTrees_binomial (ha _ rfl) (hb _ rfl)
          | exact mergeTrees_binomial (ha _ rfl) (ic _ rfl)
          | exact mergeTrees_binomial (hb _ rfl) (ic _ rfl))

end BinomialHeapPriorityQueue

namespace BinomialHeapPriorityQueue

open BinomialHeapNode

/-- C20: for two trees whose roots each have `k` children, the root of
`mergeTrees(tree1, tree2)` carries the entry of the more urgent root (`tree1` when its
entry is strictly less, else `tree2`), its first `k` children are that root's children
in their order, its last child, at position `k`, is the whole other tree, and the
result is heap-ordered when both inputs are. -/
theorem mergeTrees_structure (t1 t2 : BinomialHeapNode) (k : Nat)
    (h1 : t1.children.length = k) (h2 : t2.children.length = k) :
    (∃ parent child,
        ((parent = t1 ∧ child = t2 ∧ PQEntry.lt t1.entry t2.entry = true) ∨
          (parent = t2 ∧ child = t1 ∧ PQEntry.le t2.entry t1.entry = true)) ∧
        (mergeTrees t1 t2).entry = parent.entry ∧
        PQEntry.le parent.entry child.entry = true ∧
        (mergeTrees t1 t2).children = parent.children ++ [child] ∧
        (mergeTrees t1 t2).children.length = k + 1 ∧
        (mergeTrees t1 t2).children.take k = parent.children ∧
        (mergeTrees t1 t2).children[k]? = some child) ∧
      (t1.heapOrdered = true → t2.heapOrdered = true →
        (mergeTrees t1 t2).heapOrdered = true) := by
  refine ⟨?_, fun o1 o2 => mergeTrees_heapOrdered o1 o2⟩
  by_cases hge : PQEntry.ge t1.entry t2.entry = true
  · have hle : PQEntry.le t2.entry t1.entry = true := (PQEntry.ge_iff_le _ _).1 hge
    refine ⟨t2, t1, Or.inr ⟨rfl, rfl, hle⟩, ?_⟩
    unfold mergeTrees
    rw [if_pos hge]
    simp only [entry_mk, children_mk, List.length_append, List.length_singleton, h2, hle,
      true_and]
    refine ⟨?_, ?_⟩
    · rw [← h2]; simp
    · rw [← h2]; simp
  · have hlt : PQEntry.lt t1.entry t2.entry = true := by
      simpa [PQEntry.ge] using hge
    refine ⟨t1, t2, Or.inl ⟨rfl, rfl, hlt⟩, ?_⟩
    unfold mergeTrees
    rw [if_neg hge]
    simp only [entry_mk, children_mk, List.length_append, List.length_singleton, h1,
      PQEntry.le_of_lt_entry hlt, true_and]
    refine ⟨?_, ?_⟩
    · rw [← h1]; simp
    · rw [← h1]; simp

theorem mergeTrees_structure_witness :
    (BinomialHeapNode.mk ⟨"b", 3⟩ [BinomialHeapNode.mk ⟨"d", 8⟩ []]).children.length = 1 ∧
      (BinomialHeapNode.mk ⟨"a", 5⟩ [BinomialHeapNode.mk ⟨"c", 9⟩ []]).children.length = 1 ∧
      mergeTrees (BinomialHeapNode.mk ⟨"b", 3⟩ [BinomialHeapNode.mk ⟨"d", 8⟩ []])
          (BinomialHeapNode.mk ⟨"a", 5⟩ [BinomialHeapNode.mk ⟨"c", 9⟩ []])
        = BinomialHeapNode.mk ⟨"b", 3⟩ [BinomialHeapNode.mk ⟨"d", 8⟩ [],
            BinomialHeapNode.mk ⟨"a", 5⟩ [BinomialHeapNode.mk ⟨"c", 9⟩ []]] ∧
      ((BinomialHeapNode.mk ⟨"b", 3⟩ [BinomialHeapNode.mk ⟨"d", 8⟩ []]).heapOrdered = true →
        (BinomialHeapNode.mk ⟨"a", 5⟩ [BinomialHeapNode.mk ⟨"c", 9⟩ []]).heapOrdered = true →
        (mergeTrees (BinomialHeapNode.mk ⟨"b", 3⟩ [BinomialHeapNode.mk ⟨"d", 8⟩ []])
          (BinomialHeapNode.mk ⟨"a", 5⟩ [BinomialHeapNode.mk ⟨"c", 9⟩ []])).heapOrdered = true) :=
  ⟨rfl, rfl, rfl,
    (mergeTrees_structure (BinomialHeapNode.mk ⟨"b", 3⟩ [BinomialHeapNode.mk ⟨"d", 8⟩ []])
      (BinomialHeapNode.mk ⟨"a", 5⟩ [BinomialHeapNode.mk ⟨"c", 9⟩ []]) 1 rfl rfl).2⟩

theorem merge_getD_wellFormed {h1 h2 : List (Option BinomialHeapNode)}
    (w1 : forestWellFormed h1 = true) (w2 : forestWellFormed h2 = true) :
    ∀ i t, (merge h1 h2).getD i none = some t → t.isBinomialTree i = true := by
  obtain ⟨hm, hc⟩ := mergeLoop_wellFormed w1 w2
    (if h1.length > h2.length then h1.length else h2.length)
  have hl := mergeLoop_length h1 h2 (if h1.length > h2.length then h1.length else h2.length)
  intro i t ht
  unfold merge at ht
  simp only [] at ht
  cases hq : (mergeLoop h1 h2 (if h1.length > h2.length then h1.length else h2.length)).2 with
  | none =>
    rw [hq] at ht
    exact hm i t ht
  | some c =>
    rw [hq] at ht
    rcases getD_append_singleton ht with h | ⟨hj, hx⟩
    · exact hm i t h
    · rw [hl] at hj
      cases hx
      rw [hj]
      exact hc t hq

/-- C17: when every occupied slot `i` of both forests holds a binomial tree of order
`i`, every occupied slot `i` of `merge(heap1, heap2)` holds a binomial tree of order
`i` (so a root with `i` children and `2^i` entries), and the result holds the entries
of both inputs, as many as the two counts add up to. -/
theorem merge_wellFormed (h1 h2 : List (Option BinomialHeapNode))
    (w1 : forestWellFormed h1 = true) (w2 : forestWellFormed h2 = true) :
    forestWellFormed (merge h1 h2) = true ∧
      (∀ i t, (merge h1 h2).getD i none = some t →
        t.isBinomialTree i = true ∧ t.children.length = i ∧ t.entries.length = 2 ^ i) ∧
      (forestEntries (merge h1 h2)).length
        = (forestEntries h1).length + (forestEntries h2).length ∧
      (forestEntries (merge h1 h2)).Perm (forestEntries h1 ++ forestEntries h2) := by
  have hw := merge_getD_wellFormed w1 w2
  refine ⟨(forestWellFormed_iff _).2 hw, fun i t ht => ?_, ?_, merge_entries_perm h1 h2⟩
  · exact ⟨hw i t ht, ((isBinomialTree_iff t i).1 (hw i t ht)).1,
      isBinomialTree_count t i (hw i t ht)⟩
  · rw [(merge_entries_perm h1 h2).length_eq, List.length_append]

theorem merge_wellFormed_witness :
    forestWellFormed sampleLeft = true ∧ forestWellFormed sampleRight = true ∧
      forestWellFormed (merge sampleLeft sampleRight) = true ∧
      (∀ i t, (merge sampleLeft sampleRight).getD i none = some t →
        t.isBinomialTree i = true ∧ t.children.length = i ∧ t.entries.length = 2 ^ i) ∧
      (forestEntries (merge sampleLeft sampleRight)).length
        = (forestEntries sampleLeft).length + (forestEntries sampleRight).length ∧
      (forestEntries (merge sampleLeft sampleRight)).Perm
        (forestEntries sampleLeft ++ forestEntries sampleRight) :=
  ⟨by decide, by decide, merge_wellFormed sampleLeft sampleRight (by decide) (by decide)⟩

/-- C14: in every reachable state, every node of every tree of the forest has an
entry less than or equal, in the entry order, to every entry of the subtree it
roots. -/
theorem heap_order_invariant (q : BinomialHeapPriorityQueue) (hq : Reachable q) :
    ∀ i t, q.heap.getD i none = some t →
      ∀ n ∈ t.subtrees, ∀ x ∈ n.entries, PQEntry.le n.entry x = true := by
  intro i t ht
  exact heapOrdered_subtrees t (forestHeapOrdered_getD (inv_of_reachable hq).1 ht)

theorem heap_order_invariant_witness :
    Reachable ((fresh.enqueue "a" 5).enqueue "b" 3) ∧
      ∀ i t, ((fresh.enqueue "a" 5).enqueue "b" 3).heap.getD i none = some t →
        ∀ n ∈ t.subtrees, ∀ x ∈ n.entries, PQEntry.le n.entry x = true :=
  ⟨Reachable.enqueue "b" 3 (Reachable.enqueue "a" 5 Reachable.fresh),
    heap_order_invariant _ (Reachable.enqueue "b" 3 (Reachable.enqueue "a" 5 Reachable.fresh))⟩

/-- C15: after `enqueue("b",2)`, `enqueue("c",3)`, `enqueue("a",1)` and `dequeue()`,
a reachable state, slot 0 holds the tree ("b",2) over ("c",3): two entries and a root
with one child, where a binomial tree of order 0 has one entry and no child. -/
theorem forest_invariant_broken :
    Reachable ⟨[some (BinomialHeapNode.mk ⟨"b", 2⟩ [BinomialHeapNode.mk ⟨"c", 3⟩ []])]⟩ ∧
      (BinomialHeapNode.mk ⟨"b", 2⟩ [BinomialHeapNode.mk ⟨"c", 3⟩ []]).entries.length = 2 ∧
      (BinomialHeapNode.mk ⟨"b", 2⟩ [BinomialHeapNode.mk ⟨"c", 3⟩ []]).children.length = 1 ∧
      (BinomialHeapNode.mk ⟨"b", 2⟩ [BinomialHeapNode.mk ⟨"c", 3⟩ []]).isBinomialTree 0 = false ∧
      forestWellFormed [some (BinomialHeapNode.mk ⟨"b", 2⟩ [BinomialHeapNode.mk ⟨"c", 3⟩ []])]
        = false :=
  ⟨Reachable.dequeue
      (Reachable.enqueue "a" 1 (Reachable.enqueue "c" 3 (Reachable.enqueue "b" 2 Reachable.fresh)))
      (by rfl),
    by decide, by decide, by decide, by decide⟩

/-- C16: in the state after `enqueue("b",2)`, `enqueue("c",3)`, `enqueue("a",1)` the
root scan selects slot 0 and slot 1 holds the tree ("b",2) over ("c",3); in the forest
that `dequeue` passes to `merge` that tree is in slot 0 and slot 1 does not exist. -/
theorem dequeue_shifts_higher_slots :
    (getDequeuedRoot (((fresh.enqueue "b" 2).enqueue "c" 3).enqueue "a" 1).heap).2 = 0 ∧
      (((fresh.enqueue "b" 2).enqueue "c" 3).enqueue "a" 1).heap.getD 1 none
        = some (BinomialHeapNode.mk ⟨"b", 2⟩ [BinomialHeapNode.mk ⟨"c", 3⟩ []]) ∧
      forestAfterRemove (((fresh.enqueue "b" 2).enqueue "c" 3).enqueue "a" 1)
        = [some (BinomialHeapNode.mk ⟨"b", 2⟩ [BinomialHeapNode.mk ⟨"c", 3⟩ []])] ∧
      (forestAfterRemove (((fresh.enqueue "b" 2).enqueue "c" 3).enqueue "a" 1)).getD 1 none
        = none ∧
      dequeue (((fresh.enqueue "b" 2).enqueue "c" 3).enqueue "a" 1)
        = Except.ok ("a", ⟨merge []
            (forestAfterRemove (((fresh.enqueue "b" 2).enqueue "c" 3).enqueue "a" 1))⟩) :=
  ⟨by rfl, by rfl, by rfl, by rfl, by rfl⟩

end BinomialHeapPriorityQueue

/-! ## The contract of the linked-list queue -/

namespace LinkedPriorityQueue

theorem size_eq_length (q : LinkedPriorityQueue) : size q = q.nodes.length := by
  unfold size
  have key : ∀ (l : List ListNode) (c : Int),
      l.foldl (fun count _ => count + 1) c = c + l.length := by
    intro l
    induction l with
    | nil => intro c; simp
    | cons a l ih => intro c; simp only [List.foldl_cons, ih, List.length_cons]; push_cast; ring
  rw [key]; simp

theorem holding_spec {held : List PQEntry} {q : LinkedPriorityQueue} (h : Holding held q) :
    (entries q).Sorted (fun a b => PQEntry.le a b = true) ∧ (entries q).Perm held := by
  induction h with
  | fresh => exact ⟨by simp [entries, fresh], by simp [entries, fresh]⟩
  | enqueue value priority _ ih =>
    obtain ⟨hp, hs⟩ := enqueue_spec _ value priority
    exact ⟨hs ih.1, hp.trans (List.Perm.cons _ ih.2)⟩
  | dequeue _ hn hd ih =>
    rename_i held q q' n rest value _
    unfold dequeue at hd
    rw [hn] at hd
    simp only [Except.ok.injEq, Prod.mk.injEq] at hd
    obtain ⟨_, rfl⟩ := hd
    have he : entries q = n.entry :: entries ⟨rest⟩ := by simp [entries, hn]
    rw [he] at ih
    refine ⟨(List.sorted_cons.1 ih.1).2, ?_⟩
    have := ih.2.erase n.entry
    simpa using this

/-- C11: in every state reached from a fresh queue by calls of `enqueue` and
`dequeue`, the nodes after `head` are sorted in non-decreasing entry order and hold
exactly the entries enqueued and not yet dequeued, `size` returns their number, and
when there is one, `dequeue` and `peek` return the value of an entry that is minimal
among them, `dequeue` unlinking exactly that entry. -/
theorem linked_sorted_invariant (held : List PQEntry) (q : LinkedPriorityQueue)
    (h : Holding held q) :
    (entries q).Sorted (fun a b => PQEntry.le a b = true) ∧ (entries q).Perm held ∧
      size q = held.length ∧
      (held ≠ [] → ∃ e q', e ∈ held ∧ (∀ x ∈ held, PQEntry.le e x = true) ∧
        dequeue q = Except.ok (e.value, q') ∧ peek q = Except.ok e.value ∧
        peekPriority q = Except.ok e.priority ∧ entries q = e :: entries q' ∧
        (entries q').Perm (held.erase e)) := by
  obtain ⟨hs, hp⟩ := holding_spec h
  refine ⟨hs, hp, ?_, fun hne => ?_⟩
  · rw [size_eq_length, ← hp.length_eq]; simp [entries]
  · cases hq : q.nodes with
    | nil =>
      exfalso
      have : entries q = [] := by simp [entries, hq]
      rw [this] at hp
      exact hne hp.nil_eq.symm
    | cons n rest =>
      have he : entries q = n.entry :: entries ⟨rest⟩ := by simp [entries, hq]
      rw [he] at hs hp
      refine ⟨n.entry, ⟨rest⟩, hp.subset (List.mem_cons_self _ _), fun x hx => ?_, ?_, ?_, ?_,
        he, ?_⟩
      · rcases List.mem_cons.1 (hp.symm.subset hx) with rfl | hx
        · exact PQEntry.le_rfl_entry _
        · exact (List.sorted_cons.1 hs).1 x hx
      · simp [dequeue, hq, ListNode.entry]
      · simp [peek, hq, ListNode.entry]
      · simp [peekPriority, hq, ListNode.entry]
      · have := hp.erase n.entry
        simpa using this

theorem linked_sorted_invariant_witness :
    Holding [⟨"b", 3⟩, ⟨"a", 5⟩] ((fresh.enqueue "a" 5).enqueue "b" 3) ∧
      (entries ((fresh.enqueue "a" 5).enqueue "b" 3)).Sorted (fun a b => PQEntry.le a b = true) ∧
      (entries ((fresh.enqueue "a" 5).enqueue "b" 3)).Perm [⟨"b", 3⟩, ⟨"a", 5⟩] ∧
      size ((fresh.enqueue "a" 5).enqueue "b" 3) = ([⟨"b", 3⟩, ⟨"a", 5⟩] : List PQEntry).length ∧
      (([⟨"b", 3⟩, ⟨"a", 5⟩] : List PQEntry) ≠ [] → ∃ e q', e ∈ [⟨"b", 3⟩, ⟨"a", 5⟩] ∧
        (∀ x ∈ ([⟨"b", 3⟩, ⟨"a", 5⟩] : List PQEntry), PQEntry.le e x = true) ∧
        dequeue ((fresh.enqueue "a" 5).enqueue "b" 3) = Except.ok (e.value, q') ∧
        peek ((fresh.enqueue "a" 5).enqueue "b" 3) = Except.ok e.value ∧
        peekPriority ((fresh.enqueue "a" 5).enqueue "b" 3) = Except.ok e.priority ∧
        entries ((fresh.enqueue "a" 5).enqueue "b" 3) = e :: entries q' ∧
        (entries q').Perm (([⟨"b", 3⟩, ⟨"a", 5⟩] : List PQEntry).erase e)) :=
  ⟨Holding.enqueue "b" 3 (Holding.enqueue "a" 5 Holding.fresh),
    linked_sorted_invariant _ _ (Holding.enqueue "b" 3 (Holding.enqueue "a" 5 Holding.fresh))⟩

/-- C13: `clear` on a fresh queue reads `node->next` through the `NULL` pointer
`node`; on a queue with at least one node it leaves the empty list, for which `size`
returns 0 and `isEmpty` returns true. -/
theorem clear_on_empty_list_reads_null :
    clear fresh = Except.error QueueError.nullDereference ∧
      (∀ n ns, clear ⟨n :: ns⟩ = Except.ok fresh) ∧ size fresh = 0 ∧ isEmpty fresh = true :=
  ⟨rfl, fun _ _ => rfl, rfl, rfl⟩

end LinkedPriorityQueue

/-! ## The unsorted-vector queue -/

namespace VectorPriorityQueue

theorem urgentStep_eq (v : List PQEntry) (idx i : Nat) (urg curr : PQEntry)
    (hu : v[idx]? = some urg) (hc : v[i]? = some curr) :
    urgentStep v (Except.ok idx) i
      = if i ≠ idx ∧ PQEntry.lt curr urg = true then Except.ok i else Except.ok idx := by
  unfold urgentStep readEntry
  simp only [hu, hc]
  by_cases hi : i = idx
  · simp [hi]
  · simp only [ne_eq, hi, not_false_eq_true, if_true, true_and, PQEntry.lt, gt_iff_lt,
      Bool.or_eq_true, Bool.and_eq_true, decide_eq_true_eq]
    by_cases h1 : curr.priority < urg.priority
    · simp [h1]
    · by_cases h2 : urg.priority = curr.priority
      · by_cases h3 : curr.value.data < urg.value.data
        · simp [h1, h2, h3]
        · simp [h1, h2, h3]
      · have h2' : ¬ curr.priority = urg.priority := fun h => h2 h.symm
        simp [h1, h2, h2']

theorem scan_spec (v : List PQEntry) (hv : v ≠ []) (n : Nat) (hn : n ≤ v.length) :
    ∃ idx e, (List.range n).foldl (urgentStep v) (Except.ok 0) = Except.ok idx ∧
      v[idx]? = some e ∧ ∀ j x, j < n → v[j]? = some x → PQEntry.le e x = true := by
  induction n with
  | zero =>
    cases v with
    | nil => exact absurd rfl hv
    | cons a as =>
      exact ⟨0, a, rfl, by simp, fun j x hj _ => absurd hj (Nat.not_lt_zero j)⟩
  | succ i ih =>
    obtain ⟨idx, e, h1, h2, h3⟩ := ih (Nat.le_of_succ_le hn)
    have hi : i < v.length := hn
    rw [List.range_succ, List.foldl_append, h1]
    simp only [List.foldl_cons, List.foldl_nil]
    rw [urgentStep_eq v idx i e v[i] h2 (List.getElem?_eq_getElem hi)]
    by_cases hc : i ≠ idx ∧ PQEntry.lt v[i] e = true
    · rw [if_pos hc]
      have hle : PQEntry.le v[i] e = true := PQEntry.le_of_lt_entry hc.2
      refine ⟨i, v[i], rfl, List.getElem?_eq_getElem hi, fun j x hj hx => ?_⟩
      rcases Nat.lt_succ_iff_lt_or_eq.1 hj with hj | rfl
      · exact PQEntry.le_trans_entry hle (h3 j x hj hx)
      · rw [List.getElem?_eq_getElem hi] at hx
        cases hx
        exact PQEntry.le_rfl_entry _
    · rw [if_neg hc]
      refine ⟨idx, e, rfl, h2, fun j x hj hx => ?_⟩
      rcases Nat.lt_succ_iff_lt_or_eq.1 hj with hj | rfl
      · exact h3 j x hj hx
      · rw [List.getElem?_eq_getElem hi] at hx
        cases hx
        by_cases hij : j = idx
        · subst hij
          rw [List.getElem?_eq_getElem hi] at h2
          cases h2
          exact PQEntry.le_rfl_entry _
        · rw [PQEntry.le_iff_not_lt]
          have : ¬ PQEntry.lt v[j] e = true := fun h => hc ⟨hij, h⟩
          simpa using this

/-- C12: on every non-empty vector `returnUrgentPriorityIndex` returns an index in
range whose entry is less than or equal, in the entry order, to every entry of the
vector; `peek` and `peekPriority` return the value and priority of that entry, and
`dequeue` returns its value and removes the element at that index only, every other
element staying, those before it at their index and those after it in their order. -/
theorem vector_scan_finds_minimum (q : VectorPriorityQueue) (hne : q.unsortedVector ≠ []) :
    ∃ idx e, returnUrgentPriorityIndex q = Except.ok idx ∧ idx < q.unsortedVector.length ∧
      q.unsortedVector[idx]? = some e ∧
      (∀ x ∈ q.unsortedVector, PQEntry.le e x = true) ∧
      peek q = Except.ok e.value ∧ peekPriority q = Except.ok e.priority ∧
      dequeue q = Except.ok (e.value, ⟨q.unsortedVector.eraseIdx idx⟩) ∧
      (e :: q.unsortedVector.eraseIdx idx).Perm q.unsortedVector ∧
      (∀ j, j < idx → (q.unsortedVector.eraseIdx idx)[j]? = q.unsortedVector[j]?) ∧
      (∀ j, idx ≤ j → (q.unsortedVector.eraseIdx idx)[j]? = q.unsortedVector[j + 1]?) := by
  obtain ⟨idx, e, h1, h2, h3⟩ := scan_spec q.unsortedVector hne _ (Nat.le_refl _)
  have hlt : idx < q.unsortedVector.length := by
    by_contra hge
    rw [List.getElem?_eq_none (by omega)] at h2
    cases h2
  have hlen : ¬ q.unsortedVector.length = 0 := by omega
  have hr : returnUrgentPriorityIndex q = Except.ok idx := h1
  have hread : readEntry q.unsortedVector idx = Except.ok e := by
    simp [readEntry, h2]
  refine ⟨idx, e, hr, hlt, h2, fun x hx => ?_, ?_, ?_, ?_, ?_, ?_, ?_⟩
  · obtain ⟨j, hj, rfl⟩ := List.mem_iff_getElem.1 hx
    exact h3 j _ hj (List.getElem?_eq_getElem hj)
  · unfold peek
    rw [if_neg hlen, hr]
    show (do let e ← readEntry q.unsortedVector idx; pure e.value) = _
    rw [hread]; rfl
  · unfold peekPriority
    rw [if_neg hlen, hr]
    show (do let e ← readEntry q.unsortedVector idx; pure e.priority) = _
    rw [hread]; rfl
  · unfold dequeue
    rw [if_neg hlen, hr]
    show (do
      let e ← readEntry q.unsortedVector idx
      if idx < q.unsortedVector.length then
        pure (e.value, (⟨q.unsortedVector.eraseIdx idx⟩ : VectorPriorityQueue))
      else Except.error QueueError.indexOutOfRange) = _
    rw [hread]
    show (if idx < q.unsortedVector.length then
        pure (e.value, (⟨q.unsortedVector.eraseIdx idx⟩ : VectorPriorityQueue))
      else Except.error QueueError.indexOutOfRange) = _
    rw [if_pos hlt]; rfl
  · rw [List.getElem?_eq_getElem hlt] at h2
    cases h2
    rw [List.eraseIdx_eq_take_drop_succ]
    have hd := List.drop_eq_getElem_cons hlt
    have hsplit : q.unsortedVector
        = q.unsortedVector.take idx ++ q.unsortedVector[idx] :: q.unsortedVector.drop (idx + 1) := by
      rw [← hd, List.take_append_drop]
    conv_rhs => rw [hsplit]
    exact List.perm_middle.symm
  · intro j hj
    exact List.getElem?_eraseIdx_of_lt _ _ _ hj
  · intro j hj
    exact List.getElem?_eraseIdx_of_ge _ _ _ hj

theorem vector_scan_finds_minimum_witness :
    ((fresh.enqueue "a" 5).enqueue "b" 3).unsortedVector ≠ [] ∧
      returnUrgentPriorityIndex ((fresh.enqueue "a" 5).enqueue "b" 3) = Except.ok 1 ∧
      ∃ idx e, returnUrgentPriorityIndex ((fresh.enqueue "a" 5).enqueue "b" 3) = Except.ok idx ∧
        idx < ((fresh.enqueue "a" 5).enqueue "b" 3).unsortedVector.length ∧
        ((fresh.enqueue "a" 5).enqueue "b" 3).unsortedVector[idx]? = some e ∧
        (∀ x ∈ ((fresh.enqueue "a" 5).enqueue "b" 3).unsortedVector, PQEntry.le e x = true) ∧
        peek ((fresh.enqueue "a" 5).enqueue "b" 3) = Except.ok e.value ∧
        peekPriority ((fresh.enqueue "a" 5).enqueue "b" 3) = Except.ok e.priority ∧
        dequeue ((fresh.enqueue "a" 5).enqueue "b" 3)
          = Except.ok (e.value,
              ⟨((fresh.enqueue "a" 5).enqueue "b" 3).unsortedVector.eraseIdx idx⟩) ∧
        (e :: ((fresh.enqueue "a" 5).enqueue "b" 3).unsortedVector.eraseIdx idx).Perm
          ((fresh.enqueue "a" 5).enqueue "b" 3).unsortedVector ∧
        (∀ j, j < idx →
          (((fresh.enqueue "a" 5).enqueue "b" 3).unsortedVector.eraseIdx idx)[j]?
            = ((fresh.enqueue "a" 5).enqueue "b" 3).unsortedVector[j]?) ∧
        (∀ j, idx ≤ j →
          (((fresh.enqueue "a" 5).enqueue "b" 3).unsortedVector.eraseIdx idx)[j]?
            = ((fresh.enqueue "a" 5).enqueue "b" 3).unsortedVector[j + 1]?) :=
  ⟨by decide, by rfl, vector_scan_finds_minimum _ (by decide)⟩

end VectorPriorityQueue

/-! ## Tie-breaks, the root scan and `size` -/

namespace BinomialHeapPriorityQueue

open BinomialHeapNode

/-- C21: when the two root entries are equal, `mergeTrees(tree1, tree2)` is `tree2`
with `tree1` appended as its last child. -/
theorem mergeTrees_tie (t1 t2 : BinomialHeapNode) (h : t1.entry = t2.entry) :
    mergeTrees t1 t2 = BinomialHeapNode.mk t2.entry (t2.children ++ [t1]) ∧
      (mergeTrees t1 t2).entry = t2.entry ∧
      (mergeTrees t1 t2).children = t2.children ++ [t1] ∧
      (mergeTrees t1 t2).children.getLast? = some t1 := by
  have hge : PQEntry.ge t1.entry t2.entry = true := by
    rw [PQEntry.ge_iff_le, h]; exact PQEntry.le_rfl_entry _
  have he : mergeTrees t1 t2 = BinomialHeapNode.mk t2.entry (t2.children ++ [t1]) := by
    unfold mergeTrees; rw [if_pos hge]
  rw [he]
  exact ⟨rfl, rfl, rfl, by simp [children_mk]⟩

theorem mergeTrees_tie_witness :
    (BinomialHeapNode.mk ⟨"a", 5⟩ [BinomialHeapNode.mk ⟨"c", 9⟩ []]).entry
        = (BinomialHeapNode.mk ⟨"a", 5⟩ [BinomialHeapNode.mk ⟨"d", 8⟩ []]).entry ∧
      mergeTrees (BinomialHeapNode.mk ⟨"a", 5⟩ [BinomialHeapNode.mk ⟨"c", 9⟩ []])
          (BinomialHeapNode.mk ⟨"a", 5⟩ [BinomialHeapNode.mk ⟨"d", 8⟩ []])
        = BinomialHeapNode.mk ⟨"a", 5⟩ [BinomialHeapNode.mk ⟨"d", 8⟩ [],
            BinomialHeapNode.mk ⟨"a", 5⟩ [BinomialHeapNode.mk ⟨"c", 9⟩ []]] :=
  ⟨rfl,
    (mergeTrees_tie (BinomialHeapNode.mk ⟨"a", 5⟩ [BinomialHeapNode.mk ⟨"c", 9⟩ []])
      (BinomialHeapNode.mk ⟨"a", 5⟩ [BinomialHeapNode.mk ⟨"d", 8⟩ []]) rfl).1⟩

theorem getDequeuedRoot_later (h : List (Option BinomialHeapNode)) :
    ∀ r, (getDequeuedRoot h).1 = some r → ∀ j t, h.getD j none = some t →
      (getDequeuedRoot h).2 < j → PQEntry.lt r.entry t.entry = true := by
  have key : ∀ r, ((List.range h.length).foldl (getDequeuedRootStep h) (none, 0)).1 = some r →
      ∀ j t, j < h.length → h.getD j none = some t →
        ((List.range h.length).foldl (getDequeuedRootStep h) (none, 0)).2 < j →
        PQEntry.lt r.entry t.entry = true := by
    refine foldl_range_invariant (getDequeuedRootStep h)
      (fun k st => ∀ r, st.1 = some r → ∀ j t, j < k → h.getD j none = some t → st.2 < j →
        PQEntry.lt r.entry t.entry = true) _ h.length ?_ ?_
    · intro r _ j t hj
      exact absurd hj (Nat.not_lt_zero j)
    · intro i st _ ih
      obtain ⟨root, idx⟩ := st
      simp only [] at ih
      unfold getDequeuedRootStep
      rcases hI : h.getD i none with _ | u
      · intro r hr j t hj ht hlt
        rcases Nat.lt_succ_iff_lt_or_eq.1 hj with hj | rfl
        · exact ih r hr j t hj ht hlt
        · rw [hI] at ht; cases ht
      · cases root with
        | none =>
          intro r _ j t hj _ hlt
          simp only [] at hlt
          omega
        | some s =>
          by_cases hge : PQEntry.ge s.entry u.entry = true
          · simp only [hge, if_true]
            intro r _ j t hj _ hlt
            omega
          · simp only [hge]
            intro r hr j t hj ht hlt
            rcases Nat.lt_succ_iff_lt_or_eq.1 hj with hj | rfl
            · exact ih r hr j t hj ht hlt
            · rw [hI] at ht
              cases ht
              simp only [Bool.false_eq_true, if_false, Option.some.injEq] at hr
              subst hr
              simpa [PQEntry.ge] using hge
  intro r hr j t ht hlt
  exact key r hr j t (getD_some_lt ht) ht hlt

/-- C22: for every forest with an occupied slot, `getDequeuedRoot` ends with an index
`i` and a root `r` such that slot `i` holds `r`, the entry of `r` is less than or equal
to the entry of every root of the forest, and every occupied slot whose root entry
equals that of `r` has an index of at most `i`: on a tie the higher index wins. -/
theorem root_scan_tie_break (h : List (Option BinomialHeapNode))
    (hocc : ∃ j t, h.getD j none = some t) :
    ∃ r, (getDequeuedRoot h).1 = some r ∧ h.getD (getDequeuedRoot h).2 none = some r ∧
      (∀ j t, h.getD j none = some t → PQEntry.le r.entry t.entry = true) ∧
      (∀ j t, h.getD j none = some t → t.entry = r.entry → j ≤ (getDequeuedRoot h).2) := by
  rcases getDequeuedRoot_spec h with ⟨_, h2⟩ | ⟨r, h1, h2, h3⟩
  · obtain ⟨j, t, ht⟩ := hocc
    rw [h2 j (getD_some_lt ht)] at ht
    cases ht
  · refine ⟨r, h1, h2, h3, fun j t ht he => ?_⟩
    by_contra hlt
    have := getDequeuedRoot_later h r h1 j t ht (by omega)
    rw [he] at this
    have hirr : PQEntry.lt r.entry r.entry = false := by
      rw [← PQEntry.le_iff_not_lt]; exact PQEntry.le_rfl_entry _
    rw [hirr] at this
    cases this

theorem root_scan_tie_break_witness :
    (∃ j t, [some (BinomialHeapNode.mk ⟨"a", 1⟩ []), none,
        some (BinomialHeapNode.mk ⟨"a", 1⟩ [BinomialHeapNode.mk ⟨"b", 2⟩ []])].getD j none
          = some t) ∧
      (getDequeuedRoot [some (BinomialHeapNode.mk ⟨"a", 1⟩ []), none,
        some (BinomialHeapNode.mk ⟨"a", 1⟩ [BinomialHeapNode.mk ⟨"b", 2⟩ []])]).2 = 2 ∧
      ∃ r, (getDequeuedRoot [some (BinomialHeapNode.mk ⟨"a", 1⟩ []), none,
          some (BinomialHeapNode.mk ⟨"a", 1⟩ [BinomialHeapNode.mk ⟨"b", 2⟩ []])]).1 = some r ∧
        [some (BinomialHeapNode.mk ⟨"a", 1⟩ []), none,
          some (BinomialHeapNode.mk ⟨"a", 1⟩ [BinomialHeapNode.mk ⟨"b", 2⟩ []])].getD
            (getDequeuedRoot [some (BinomialHeapNode.mk ⟨"a", 1⟩ []), none,
              some (BinomialHeapNode.mk ⟨"a", 1⟩ [BinomialHeapNode.mk ⟨"b", 2⟩ []])]).2 none
          = some r ∧
        (∀ j t, [some (BinomialHeapNode.mk ⟨"a", 1⟩ []), none,
          some (BinomialHeapNode.mk ⟨"a", 1⟩ [BinomialHeapNode.mk ⟨"b", 2⟩ []])].getD j none
            = some t → PQEntry.le r.entry t.entry = true) ∧
        (∀ j t, [some (BinomialHeapNode.mk ⟨"a", 1⟩ []), none,
          some (BinomialHeapNode.mk ⟨"a", 1⟩ [BinomialHeapNode.mk ⟨"b", 2⟩ []])].getD j none
            = some t → t.entry = r.entry →
            j ≤ (getDequeuedRoot [some (BinomialHeapNode.mk ⟨"a", 1⟩ []), none,
              some (BinomialHeapNode.mk ⟨"a", 1⟩ [BinomialHeapNode.mk ⟨"b", 2⟩ []])]).2) :=
  ⟨⟨0, _, rfl⟩, by rfl,
    root_scan_tie_break [some (BinomialHeapNode.mk ⟨"a", 1⟩ []), none,
      some (BinomialHeapNode.mk ⟨"a", 1⟩ [BinomialHeapNode.mk ⟨"b", 2⟩ []])] ⟨0, _, rfl⟩⟩

/-- C24: in every state with an occupied slot, `peek` returns the value that an
immediately following `dequeue` returns, and `peekPriority` returns the priority of
the entry that this `dequeue` removes: the root the scan selects, whose entry leaves
the entries held. -/
theorem peek_agrees_with_dequeue (q : BinomialHeapPriorityQueue)
    (hocc : ∃ j t, q.heap.getD j none = some t) :
    ∃ r q', q.heap.getD (getDequeuedRoot q.heap).2 none = some r ∧
      peek q = Except.ok r.entry.value ∧ peekPriority q = Except.ok r.entry.priority ∧
      dequeue q = Except.ok (r.entry.value, q') ∧
      (r.entry :: entries q').Perm (entries q) := by
  rcases getDequeuedRoot_spec q.heap with ⟨_, hnone⟩ | ⟨r, h1, h2, _⟩
  · obtain ⟨j, t, ht⟩ := hocc
    rw [hnone j (getD_some_lt ht)] at ht
    cases ht
  obtain ⟨p1, p2⟩ := peek_of_root h1 h2
  exact ⟨r, _, h2, p1, p2, dequeue_of_root h1 h2, (dequeue_post h2).1⟩

theorem peek_agrees_with_dequeue_witness :
    (∃ j t, (⟨sampleLeft⟩ : BinomialHeapPriorityQueue).heap.getD j none = some t) ∧
      peek ⟨sampleLeft⟩ = Except.ok "a" ∧
      ∃ r q', (⟨sampleLeft⟩ : BinomialHeapPriorityQueue).heap.getD
          (getDequeuedRoot (⟨sampleLeft⟩ : BinomialHeapPriorityQueue).heap).2 none = some r ∧
        peek ⟨sampleLeft⟩ = Except.ok r.entry.value ∧
        peekPriority ⟨sampleLeft⟩ = Except.ok r.entry.priority ∧
        dequeue ⟨sampleLeft⟩ = Except.ok (r.entry.value, q') ∧
        (r.entry :: entries q').Perm (entries ⟨sampleLeft⟩) :=
  ⟨⟨0, _, rfl⟩, by rfl, peek_agrees_with_dequeue ⟨sampleLeft⟩ ⟨0, _, rfl⟩⟩

end BinomialHeapPriorityQueue

namespace BinomialHeapPriorityQueue

open BinomialHeapNode

theorem size_eq_occupiedSum (q : BinomialHeapPriorityQueue) : size q = occupiedSum q.heap := by
  unfold size occupiedSum
  refine foldl_range_invariant
    (fun heapSize i => if (q.heap.getD i none).isSome then heapSize + power 2 i else heapSize)
    (fun k acc => acc = occupiedSumBelow q.heap k) 0 q.heap.length rfl ?_
  intro i acc _ ih
  beta_reduce
  rw [ih, power_eq_pow]
  simp only [occupiedSumBelow]
  split <;> simp

theorem power_of_nonneg (base e : Int) (_he : 0 ≤ e) : power base e = base ^ e.toNat := by
  unfold power
  refine foldl_range_invariant (fun result _ => result * base) (fun k result => result = base ^ k)
    1 e.toNat ?_ ?_
  · simp
  · intro i s _ ih
    simp only [] at ih ⊢
    rw [ih, pow_succ]

theorem power_of_nonpos (base e : Int) (he : e ≤ 0) : power base e = 1 := by
  unfold power
  rw [Int.toNat_eq_zero.2 he]
  rfl

/-- C27: `size` returns the sum of `2^i` over the occupied slots `i` of the forest;
`power(2, i)` is `2^i` for every `i >= 0`, and in general `power(base, e)` is `base^e`
for `e >= 0` and 1 for `e <= 0`. -/
theorem size_is_binary_value :
    (∀ q : BinomialHeapPriorityQueue, size q = occupiedSum q.heap) ∧
      (∀ i : Nat, power 2 i = 2 ^ i) ∧
      (∀ base e : Int, 0 ≤ e → power base e = base ^ e.toNat) ∧
      (∀ base e : Int, e ≤ 0 → power base e = 1) :=
  ⟨size_eq_occupiedSum, fun i => power_eq_pow 2 i, power_of_nonneg, power_of_nonpos⟩

theorem occupiedSumBelow_congr (a b : List (Option BinomialHeapNode)) (k : Nat)
    (h : ∀ i, i < k → (a.getD i none).isSome = (b.getD i none).isSome) :
    occupiedSumBelow a k = occupiedSumBelow b k := by
  induction k with
  | zero => rfl
  | succ n ih =>
    simp only [occupiedSumBelow]
    rw [ih (fun i hi => h i (Nat.lt_succ_of_lt hi)), h n (Nat.lt_succ_self n)]

theorem occupiedSumBelow_beyond (a : List (Option BinomialHeapNode)) (k : Nat)
    (hk : a.length ≤ k) : occupiedSumBelow a k = occupiedSum a := by
  induction k with
  | zero =>
    have : a.length = 0 := Nat.le_zero.1 hk
    unfold occupiedSum; rw [this]
  | succ n ih =>
    rcases Nat.lt_or_ge n a.length with hlt | hge
    · have : a.length = n + 1 := by omega
      unfold occupiedSum; rw [this]
    · simp only [occupiedSumBelow]
      rw [ih hge, List.getD_eq_getElem?_getD, List.getElem?_eq_none hge]
      simp

theorem occupiedSum_append (m : List (Option BinomialHeapNode)) (x : Option BinomialHeapNode) :
    occupiedSum (m ++ [x]) = occupiedSum m + (if x.isSome then 2 ^ m.length else 0) := by
  unfold occupiedSum
  rw [List.length_append, List.length_singleton]
  simp only [occupiedSumBelow, getD_append_length]
  rw [occupiedSumBelow_congr (m ++ [x]) m m.length]
  intro i hi
  simp only [List.getD_eq_getElem?_getD]
  rw [List.getElem?_append_left hi]

theorem mergeLoop_occupiedSum (a b : List (Option BinomialHeapNode)) (k : Nat) :
    occupiedSum (mergeLoop a b k).1 + (if (mergeLoop a b k).2.isSome then 2 ^ k else 0)
      = occupiedSumBelow a k + occupiedSumBelow b k := by
  induction k with
  | zero => rfl
  | succ n ih =>
    have hl := mergeLoop_length a b n
    rw [carryInto_succ, mergeStep_eq]
    simp only [occupiedSumBelow]
    unfold carryInto
    rcases hA : a.getD n none with _ | x <;> rcases hB : b.getD n none with _ | y <;>
      rcases hC : (mergeLoop a b n).2 with _ | z <;>
      rw [hC] at ih <;>
      simp only [occupiedSum_append, hl, Option.isSome_none, Option.isSome_some,
        Bool.false_eq_true, if_false, if_true, add_zero] at ih ⊢ <;>
      linarith [ih, show (2 : Int) ^ (n + 1) = 2 * 2 ^ n from by ring]

theorem merge_occupiedSum (a b : List (Option BinomialHeapNode)) :
    occupiedSum (merge a b) = occupiedSum a + occupiedSum b := by
  have key := mergeLoop_occupiedSum a b (if a.length > b.length then a.length else b.length)
  have hl := mergeLoop_length a b (if a.length > b.length then a.length else b.length)
  rw [occupiedSumBelow_beyond a _ (by split <;> omega),
    occupiedSumBelow_beyond b _ (by split <;> omega)] at key
  rw [← key]
  unfold merge
  simp only []
  cases (mergeLoop a b (if a.length > b.length then a.length else b.length)).2 with
  | none => simp
  | some c => simp [occupiedSum_append, hl]

theorem size_enqueue (q : BinomialHeapPriorityQueue) (value : String) (priority : Int) :
    size (q.enqueue value priority) = size q + 1 := by
  rw [size_eq_occupiedSum, size_eq_occupiedSum]
  unfold enqueue
  simp only [merge_occupiedSum]
  have : occupiedSum [some (BinomialHeapNode.mk ⟨value, priority⟩ [])] = 1 := by
    simp [occupiedSum, occupiedSumBelow]
  rw [this]; ring

theorem size_enqueueAll (l : List (String × Int)) :
    ∀ q : BinomialHeapPriorityQueue, size (enqueueAll q l) = size q + l.length := by
  induction l with
  | nil => intro q; simp [enqueueAll]
  | cons p l ih =>
    intro q
    have := ih (q.enqueue p.1 p.2)
    simp only [enqueueAll, List.foldl_cons, List.length_cons] at this ⊢
    rw [this, size_enqueue]
    push_cast; ring

/-- C23: for any two slot sequences the sum of `2^i` over the occupied slots of
`merge(a, b)` is the sum for `a` plus the sum for `b`; so for every queue state
whatsoever `size` after `enqueue` is one more than before, and `size` is `k` after
`k` enqueues on a fresh queue. -/
theorem enqueue_increments_size :
    (∀ a b : List (Option BinomialHeapNode),
        occupiedSum (merge a b) = occupiedSum a + occupiedSum b) ∧
      (∀ (q : BinomialHeapPriorityQueue) (value : String) (priority : Int),
        occupiedSum (q.enqueue value priority).heap = occupiedSum q.heap + 1 ∧
          size (q.enqueue value priority) = size q + 1) ∧
      (∀ l : List (String × Int), size (enqueueAll fresh l) = l.length) := by
  refine ⟨merge_occupiedSum, fun q value priority => ⟨?_, size_enqueue q value priority⟩,
    fun l => ?_⟩
  · have := size_enqueue q value priority
    rwa [size_eq_occupiedSum, size_eq_occupiedSum] at this
  · rw [size_enqueueAll]
    simp [size_eq_occupiedSum, fresh, occupiedSum, occupiedSumBelow]

end BinomialHeapPriorityQueue

/-! ## The array heap: reads, writes and the two loops -/

namespace HeapPriorityQueue

theorem error_bind {α β : Type} (e : QueueError) (f : α → Except QueueError β) :
    ((Except.error e : Except QueueError α) >>= f) = Except.error e := rfl

end HeapPriorityQueue

namespace HeapPriorityQueue

end HeapPriorityQueue

namespace HeapPriorityQueue

end HeapPriorityQueue

namespace HeapPriorityQueue

end HeapPriorityQueue

namespace HeapPriorityQueue

end HeapPriorityQueue

/-! ## The array heap under priorities of at least 1 -/

namespace HeapPriorityQueue

end HeapPriorityQueue


namespace HeapPriorityQueue

end HeapPriorityQueue


namespace HeapPriorityQueue

end HeapPriorityQueue


namespace HeapPriorityQueue

end HeapPriorityQueue


namespace HeapPriorityQueue

end HeapPriorityQueue


namespace HeapPriorityQueue

end HeapPriorityQueue
